import Mathlib

/-!
# Verification of the fixture timestamp updater

Shallow embedding of the timestamp-shifting utility (fixture-updater.py):
parsing and rendering of the two supported UTC timestamp shapes, the scan
over the nested JSON fixture tree, the single-delta shift planning, and the
apply/write pipeline.  Machine dates are modelled with the proleptic
Gregorian calendar exactly as the Python datetime module implements it
(ordinal day 1 = 0001-01-01, years 1 to 9999).
-/

/-! ## Calendar core (CPython datetime module arithmetic)

The Python datetime module stores a date as (year, month, day) and converts
to and from a day ordinal with _ymd2ord and _ord2ymd.  We embed _ymd2ord
directly; _ord2ymd is embedded as the inverse of _ymd2ord, which is its
documented contract ("ordinal -> (year, month, day), considering
01-Jan-0001 as day 1"), via a bounded descending search for the year and a
search over the twelve months.
-/

/-- Leap year test, as in the Python datetime module. -/
def isLeap (y : Nat) : Bool := (y % 4 == 0 && y % 100 != 0) || y % 400 == 0

/-- Number of days in month m (1-12) of a year with leap flag. -/
def daysInMonth (leap : Bool) (m : Nat) : Nat :=
  if m = 2 then (if leap then 29 else 28)
  else if m = 4 ∨ m = 6 ∨ m = 9 ∨ m = 11 then 30
  else 31

/-- Days in the months strictly before month m (1-12). -/
def daysBeforeMonth (leap : Bool) (m : Nat) : Nat :=
  match m with
  | 0 => 0
  | n + 1 => if n = 0 then 0 else daysBeforeMonth leap n + daysInMonth leap n

/-- Number of days in the years strictly before year y:
(y-1)*365 + (y-1)/4 - (y-1)/100 + (y-1)/400, as _days_before_year. -/
def daysBeforeYear (y : Nat) : Nat :=
  (y - 1) * 365 + (y - 1) / 4 - (y - 1) / 100 + (y - 1) / 400

/-- Days in a year given by the leap flag. -/
def daysInYear (leap : Bool) : Nat := if leap then 366 else 365

/-- Proleptic Gregorian ordinal of a date, day 1 = 0001-01-01 (_ymd2ord). -/
def ymd2ord (y m d : Nat) : Nat := daysBeforeYear y + daysBeforeMonth (isLeap y) m + d

/-- A valid calendar date in the range the Python datetime module accepts. -/
def validYMD (y m d : Nat) : Prop :=
  1 ≤ y ∧ y ≤ 9999 ∧ 1 ≤ m ∧ m ≤ 12 ∧ 1 ≤ d ∧ d ≤ daysInMonth (isLeap y) m

instance (y m d : Nat) : Decidable (validYMD y m d) := by
  unfold validYMD; infer_instance

/-- Descending search for the year containing 0-based day number n0:
the largest y ≤ fuel with daysBeforeYear y ≤ n0. -/
def yearOfAux : Nat → Nat → Nat
  | 0, _ => 1
  | y + 1, n0 => if daysBeforeYear (y + 1) ≤ n0 then y + 1 else yearOfAux y n0

/-- Year containing the 0-based day number n0 (days since 0001-01-01). -/
def yearOf (n0 : Nat) : Nat := yearOfAux 9999 n0

/-- Month and day of the 1-based day-of-year doy: the largest month m with
daysBeforeMonth m < doy, paired with the remaining day count. -/
def monthOfAux : Nat → Bool → Nat → Nat
  | 0, _, _ => 1
  | m + 1, leap, doy => if daysBeforeMonth leap (m + 1) < doy then m + 1 else monthOfAux m leap doy

def monthDayOfDoy (leap : Bool) (doy : Nat) : Nat × Nat :=
  let m := monthOfAux 12 leap doy
  (m, doy - daysBeforeMonth leap m)

/-- Inverse of ymd2ord: ordinal n (1-based) to (year, month, day).
Embeds _ord2ymd through its contract of being that inverse. -/
def ord2ymd (n : Nat) : Nat × Nat × Nat :=
  let n0 := n - 1
  let y := yearOf n0
  let doy := n0 - daysBeforeYear y + 1
  let md := monthDayOfDoy (isLeap y) doy
  (y, md.1, md.2)

/-! ## Datetimes

A Python aware datetime with tzinfo = UTC, stored as its civil components,
exactly as the datetime object stores year, month, day, hour, minute,
second and microsecond. -/

structure DateTime where
  year : Nat
  month : Nat
  day : Nat
  hour : Nat
  minute : Nat
  second : Nat
  microsecond : Nat
deriving Repr, DecidableEq

/-- The component ranges the datetime constructor enforces. -/
def validDT (t : DateTime) : Prop :=
  validYMD t.year t.month t.day ∧
  t.hour < 24 ∧ t.minute < 60 ∧ t.second < 60 ∧ t.microsecond < 1000000

instance (t : DateTime) : Decidable (validDT t) := by
  unfold validDT; infer_instance

/-- One past the largest representable instant, in microseconds. -/
def maxMicros : Nat := 3652059 * 86400000000

/-- Instant of a UTC datetime: microseconds since 0001-01-01T00:00:00+00:00.
Aware datetime comparison and subtraction compare exactly this quantity. -/
def toMicros (t : DateTime) : Nat :=
  (ymd2ord t.year t.month t.day - 1) * 86400000000 +
    ((t.hour * 60 + t.minute) * 60 + t.second) * 1000000 + t.microsecond

/-- Instant in microseconds back to a datetime (the normalization both
datetime.__add__ and fromordinal perform). -/
def fromMicros (n : Nat) : DateTime :=
  let days := n / 86400000000
  let r := n % 86400000000
  let ymd := ord2ymd (days + 1)
  let sec := r / 1000000
  { year := ymd.1, month := ymd.2.1, day := ymd.2.2,
    hour := sec / 3600, minute := sec / 60 % 60, second := sec % 60,
    microsecond := r % 1000000 }

/-- datetime + timedelta: shift the instant by delta microseconds,
raising OverflowError when the result leaves the years 1..9999. -/
def addDelta (t : DateTime) (delta : Int) : Except String DateTime :=
  if 0 ≤ (toMicros t : Int) + delta ∧ (toMicros t : Int) + delta < (maxMicros : Int) then
    .ok (fromMicros ((toMicros t : Int) + delta).toNat)
  else .error "OverflowError: date value out of range"

/-! ## Timestamp text shapes

The two regular expressions of the updater, embedded as full-string
matchers over the character list of the input.  The digit class is
modelled as the ASCII digits; the Python class \d also matches non-ASCII
Unicode decimal digits, which fromisoformat then rejects with a
ValueError, so the matchers agree with the patterns exactly on ASCII
text and the characterisation theorem below is stated for ASCII input.
The trailing anchor of a Python pattern also matches just before one
final newline, which reMatch reproduces by stripping a single trailing
newline before the anchored comparison. -/

/-- ASCII digit test: the intersection of the Python class \d with the
ASCII range. -/
def isDig (c : Char) : Bool := 48 ≤ c.toNat && c.toNat ≤ 57

/-- Numeric value of a digit character. -/
def digitVal (c : Char) : Nat := c.toNat - 48

/-- Digit character for a value below ten. -/
def digitChar : Nat → Char
  | 0 => '0' | 1 => '1' | 2 => '2' | 3 => '3' | 4 => '4'
  | 5 => '5' | 6 => '6' | 7 => '7' | 8 => '8' | _ => '9'

/-- Numeric value of a digit string, most significant digit first. -/
def natOfDigits (cs : List Char) : Nat := cs.foldl (fun a c => 10 * a + digitVal c) 0

/-- Fixed-width decimal rendering: exactly k digits, zero padded. -/
def padDigits : Nat → Nat → List Char
  | 0, _ => []
  | k + 1, n => padDigits k (n / 10) ++ [digitChar (n % 10)]

/-- Helper for decDigits: digits of n, most significant first, with the
first argument as recursion fuel (n itself always suffices). -/
def decDigitsAux : Nat → Nat → List Char
  | 0, _ => []
  | fuel + 1, n =>
    if n = 0 then [] else decDigitsAux fuel (n / 10) ++ [digitChar (n % 10)]

/-- Unpadded decimal rendering, as printf %d and glibc strftime %Y print a
number: the digits of n with no leading zeros, a single 0 for zero. -/
def decDigits (n : Nat) : List Char :=
  if n = 0 then ['0'] else decDigitsAux n n

/-- Match of the optional fraction and the final Z of
DATETIME_FIELD_PATTERN, everything after the seconds: either the single
character Z, or a dot, one to six digits and the final Z. -/
def fracOf (cs : List Char) : Option (List Char) :=
  if cs = ['Z'] then some []
  else if cs.head? = some '.' then
    if cs.tail.getLast? == some 'Z' && 1 ≤ cs.tail.dropLast.length &&
        cs.tail.dropLast.length ≤ 6 && cs.tail.dropLast.all isDig
    then some cs.tail.dropLast else none
  else none

/-- Anchored body of DATETIME_FIELD_PATTERN over a character list:
four date digits, dash, two, dash, two, literal T, three colon-separated
two-digit groups, then the optional fraction and literal Z. -/
def dtMatchCore (cs : List Char) :
    Option (Nat × Nat × Nat × Nat × Nat × Nat × List Char) :=
  match cs with
  | y1 :: y2 :: y3 :: y4 :: '-' :: m1 :: m2 :: '-' :: d1 :: d2 :: 'T' ::
      h1 :: h2 :: ':' :: i1 :: i2 :: ':' :: s1 :: s2 :: rest =>
    if isDig y1 && isDig y2 && isDig y3 && isDig y4 && isDig m1 && isDig m2 &&
        isDig d1 && isDig d2 && isDig h1 && isDig h2 && isDig i1 && isDig i2 &&
        isDig s1 && isDig s2 then
      match fracOf rest with
      | some digs => some (natOfDigits [y1, y2, y3, y4], natOfDigits [m1, m2],
          natOfDigits [d1, d2], natOfDigits [h1, h2], natOfDigits [i1, i2],
          natOfDigits [s1, s2], digs)
      | none => none
    else none
  | _ => none

/-- Anchored body of DATE_FIELD_PATTERN: exactly YYYY-MM-DD. -/
def dateMatchCore (cs : List Char) : Option (Nat × Nat × Nat) :=
  match cs with
  | [y1, y2, y3, y4, '-', m1, m2, '-', d1, d2] =>
    if isDig y1 && isDig y2 && isDig y3 && isDig y4 && isDig m1 && isDig m2 &&
        isDig d1 && isDig d2 then
      some (natOfDigits [y1, y2, y3, y4], natOfDigits [m1, m2], natOfDigits [d1, d2])
    else none
  | _ => none

/-- Drop one final newline, as the trailing anchor of the pattern allows. -/
def stripNL (cs : List Char) : List Char :=
  if cs.getLast? == some '\n' then cs.dropLast else cs

/-- DATETIME_FIELD_PATTERN.match on a Python string. -/
def reMatchDT (s : String) : Option (Nat × Nat × Nat × Nat × Nat × Nat × List Char) :=
  dtMatchCore (stripNL s.data)

/-- DATE_FIELD_PATTERN.match on a Python string. -/
def reMatchDate (s : String) : Option (Nat × Nat × Nat) :=
  dateMatchCore (stripNL s.data)

/-- Which of the two patterns a parsed value carries (the value_type slot
of the result triple: DATETIME_FIELD_PATTERN or DATE_FIELD_PATTERN). -/
inductive Shape where
  | dateOnly
  | dateTime
deriving Repr, DecidableEq

/-- Parsed instant with its format-preserving attributes. -/
structure TimestampValue where
  dt : DateTime
  shape : Shape
  fracLen : Nat
deriving Repr, DecidableEq

/-- The padded fraction (fraction + "000000")[:6]. -/
def padFraction (digs : List Char) : List Char := (digs ++ List.replicate 6 '0').take 6

/-- Range validation datetime.fromisoformat performs on the rebuilt
canonical string: the datetime constructor checks the component ranges
(the year group has four digits, so only zero can be out of range). -/
def fromIsoComponents (y mo d h mi s us : Nat) : Except String DateTime :=
  if validYMD y mo d ∧ h < 24 ∧ mi < 60 ∧ s < 60 then .ok ⟨y, mo, d, h, mi, s, us⟩
  else .error "ValueError: invalid isoformat components"

/-- parse_utc_timestamp: try DATETIME_FIELD_PATTERN, then
DATE_FIELD_PATTERN; .ok none is the no-match (not recognized) result and
.error is an uncaught ValueError escaping from fromisoformat. -/
def parse_utc_timestamp (s : String) : Except String (Option TimestampValue) :=
  match reMatchDT s with
  | some (y, mo, d, h, mi, se, digs) =>
    match fromIsoComponents y mo d h mi se (natOfDigits (padFraction digs)) with
    | .ok t => .ok (some ⟨t, .dateTime, digs.length⟩)
    | .error e => .error e
  | none =>
    match reMatchDate s with
    | some (y, mo, d) =>
      match fromIsoComponents y mo d 0 0 0 0 with
      | .ok t => .ok (some ⟨t, .dateOnly, 0⟩)
      | .error e => .error e
    | none => .ok none

/-- format_utc_timestamp.  value.astimezone(UTC) is the identity here
because every embedded datetime is already UTC.  The date branch is
date().isoformat(), which zero pads the year to four digits.  The
datetime branch is strftime, where glibc %Y prints the year unpadded, so
years below 1000 render in fewer than four digits; the two-digit fields
are zero padded, and the fraction is the first fraction_len digits of the
six-digit microsecond field. -/
def format_utc_timestamp (t : DateTime) (shape : Shape) (fracLen : Nat) : String :=
  match shape with
  | .dateOnly =>
    ⟨padDigits 4 t.year ++ ['-'] ++ padDigits 2 t.month ++ ['-'] ++ padDigits 2 t.day⟩
  | .dateTime =>
    let base := decDigits t.year ++ ['-'] ++ padDigits 2 t.month ++ ['-'] ++
      padDigits 2 t.day ++ ['T'] ++ padDigits 2 t.hour ++ [':'] ++
      padDigits 2 t.minute ++ [':'] ++ padDigits 2 t.second
    if fracLen > 0 then ⟨base ++ ['.'] ++ (padDigits 6 t.microsecond).take fracLen ++ ['Z']⟩
    else ⟨base ++ ['Z']⟩

/-- The instant a rendered text denotes: rendering keeps only the date for
DATE_ONLY and only the first fracLen microsecond digits for DATETIME, so
re-parsing the rendered text yields this truncation of the instant.  Used
to state round-trip properties of format_utc_timestamp. -/
def truncatedTo (t : DateTime) (shape : Shape) (fracLen : Nat) : DateTime :=
  match shape with
  | .dateOnly => ⟨t.year, t.month, t.day, 0, 0, 0, 0⟩
  | .dateTime => ⟨t.year, t.month, t.day, t.hour, t.minute, t.second,
      t.microsecond / 10 ^ (6 - fracLen) * 10 ^ (6 - fracLen)⟩

/-! ## Fixture tree

The parsed JSON document.  json.loads yields an alias-free tree whose
objects preserve key order and have distinct keys, so a mutable container
reference plus key or index, as the scanner records, is equivalent to the
path from the root; the embedding records that path. -/

inductive JValue where
  | str (s : String)
  | num (n : Int)
  | bool (b : Bool)
  | null
  | arr (items : List JValue)
  | obj (fields : List (String × JValue))
deriving Repr

/-- One component of a path: a mapping key or a sequence index. -/
inductive Step where
  | key (k : String)
  | idx (i : Nat)
deriving Repr, DecidableEq

/-- First value stored under key k (keys are unique after json.loads). -/
def lookupJ : List (String × JValue) → String → Option JValue
  | [], _ => none
  | (k', v) :: rest, k => if k' = k then some v else lookupJ rest k

/-- Replace the value under key k in place, keeping entry order, as
assignment to an existing dict key does. -/
def setKey : List (String × JValue) → String → JValue → List (String × JValue)
  | [], _, _ => []
  | (k', v) :: rest, k, x => if k' = k then (k', x) :: rest else (k', v) :: setKey rest k x

mutual
/-- iter_string_nodes: depth-first walk over nested mappings and
sequences, yielding every string leaf with the path to it. -/
def iterStringNodes : JValue → List (List Step × String)
  | .obj fs => iterObj fs
  | .arr xs => iterArr 0 xs
  | _ => []

def iterObj : List (String × JValue) → List (List Step × String)
  | [] => []
  | (k, .str s) :: rest => ([Step.key k], s) :: iterObj rest
  | (k, v) :: rest =>
    (iterStringNodes v).map (fun ps => (Step.key k :: ps.1, ps.2)) ++ iterObj rest

def iterArr : Nat → List JValue → List (List Step × String)
  | _, [] => []
  | i, .str s :: rest => ([Step.idx i], s) :: iterArr (i + 1) rest
  | i, v :: rest =>
    (iterStringNodes v).map (fun ps => (Step.idx i :: ps.1, ps.2)) ++ iterArr (i + 1) rest
end

/-- Read the value at a path. -/
def getAtPath : List Step → JValue → Option JValue
  | [], v => some v
  | Step.key k :: rest, .obj fs =>
    match lookupJ fs k with
    | some u => getAtPath rest u
    | none => none
  | Step.idx i :: rest, .arr xs =>
    match xs.get? i with
    | some u => getAtPath rest u
    | none => none
  | _ :: _, _ => none

/-- Overwrite the string slot at a path, the container[key] = text
assignment of the applier done through the recorded reference. -/
def setAtPath : List Step → String → JValue → JValue
  | [], _, v => v
  | [Step.key k], snew, .obj fs => .obj (setKey fs k (.str snew))
  | [Step.idx i], snew, .arr xs => .arr (xs.set i (.str snew))
  | Step.key k :: r :: rest, snew, .obj fs =>
    match lookupJ fs k with
    | some u => .obj (setKey fs k (setAtPath (r :: rest) snew u))
    | none => .obj fs
  | Step.idx i :: r :: rest, snew, .arr xs =>
    match xs.get? i with
    | some u => .arr (xs.set i (setAtPath (r :: rest) snew u))
    | none => .arr xs
  | _, _, v => v

/-- No string occurs twice under one mapping: true of every tree
json.loads builds (later duplicates overwrite earlier ones). -/
def allDistinct : List String → Bool
  | [] => true
  | x :: rest => !rest.contains x && allDistinct rest

mutual
/-- Key uniqueness throughout the tree, the invariant of parsed JSON. -/
def uniqKeysB : JValue → Bool
  | .obj fs => allDistinct (fs.map Prod.fst) && uniqObjB fs
  | .arr xs => uniqArrB xs
  | _ => true

def uniqObjB : List (String × JValue) → Bool
  | [] => true
  | (_, v) :: rest => uniqKeysB v && uniqObjB rest

def uniqArrB : List JValue → Bool
  | [] => true
  | v :: rest => uniqKeysB v && uniqArrB rest
end

/-! ## The updater pipeline -/

/-- One collected timestamp: the recorded overwrite location (as the path
from the document root) with the parsed instant, pattern and fraction
length, the tuple appended to found_dates. -/
structure Found where
  path : List Step
  dt : DateTime
  shape : Shape
  fracLen : Nat
deriving Repr, DecidableEq

/-- Per-item structural validation of load_fixture, with the exact
TypeError messages; idx counts from the start of the array. -/
def checkItems : Nat → List JValue → Except String Unit
  | _, [] => .ok ()
  | idx, item :: rest =>
    match item with
    | .obj fs =>
      match lookupJ fs "fields" with
      | some (.obj _) => checkItems (idx + 1) rest
      | _ => .error ("Fixture item at index " ++ toString idx ++
          " is missing a valid \"fields\" object.")
    | _ => .error ("Fixture item at index " ++ toString idx ++ " is not an object.")

/-- load_fixture: top-level shape validation of the parsed document. -/
def load_fixture (v : JValue) : Except String (List JValue) :=
  match v with
  | .arr items =>
    match checkItems 0 items with
    | .ok _ => .ok items
    | .error e => .error e
  | _ => .error "Fixture JSON must be an array at the top level."

/-- The fields value of a fixture item (always present after
load_fixture; the null default is unreachable). -/
def getFields (item : JValue) : JValue :=
  match item with
  | .obj fs =>
    match lookupJ fs "fields" with
    | some v => v
    | none => .null
  | _ => .null

/-- Scan the yielded strings of one item: parse each, keep successes,
let a ValueError escape. -/
def collectFrom (i : Nat) : List (List Step × String) → Except String (List Found)
  | [] => .ok []
  | (p, s) :: rest =>
    match parse_utc_timestamp s with
    | .error e => .error e
    | .ok none => collectFrom i rest
    | .ok (some tv) =>
      match collectFrom i rest with
      | .error e => .error e
      | .ok fs => .ok (⟨Step.idx i :: Step.key "fields" :: p, tv.dt, tv.shape, tv.fracLen⟩ :: fs)

/-- collect_dates: scan each object's fields subtree in order. -/
def collect_dates : Nat → List JValue → Except String (List Found)
  | _, [] => .ok []
  | i, item :: rest =>
    match collectFrom i (iterStringNodes (getFields item)) with
    | .error e => .error e
    | .ok fs1 =>
      match collect_dates (i + 1) rest with
      | .error e => .error e
      | .ok fs2 => .ok (fs1 ++ fs2)

/-- max(found_dates, key=itemgetter(2)): the builtin max keeps the first
element and replaces it only on a strictly greater key, so the first of
several tied maxima is returned. -/
def pyMax (f : Found) (rest : List Found) : Found :=
  rest.foldl (fun acc x => if toMicros acc.dt < toMicros x.dt then x else acc) f

/-- target_latest_dt or datetime.now(UTC): a datetime object is always
truthy, so the caller-supplied target always wins when present. -/
def targetOf (targetOpt : Option DateTime) (now : DateTime) : DateTime :=
  match targetOpt with
  | some t => t
  | none => now

/-- compute_shift: delta (in microseconds) from the maximum instant to
the target.  Only reached with a non-empty found list; on an empty list
the builtin max would raise, modelled by an unused zero. -/
def compute_shift (found : List Found) (target : DateTime) : Int :=
  match found with
  | [] => 0
  | f :: rest => (toMicros target : Int) - (toMicros (pyMax f rest).dt : Int)

/-- The overwrite loop of apply_shift. -/
def applyLoop (d : Int) (root : JValue) : List Found → Except String JValue
  | [] => .ok root
  | f :: rest =>
    match addDelta f.dt d with
    | .error e => .error e
    | .ok shifted =>
      applyLoop d (setAtPath f.path (format_utc_timestamp shifted f.shape f.fracLen) root) rest

/-- apply_shift: refuse to run before a delta exists, then shift and
overwrite every recorded location, returning the count. -/
def apply_shift (delta : Option Int) (root : JValue) (found : List Found) :
    Except String (JValue × Nat) :=
  match delta with
  | none => .error "Cannot apply shift before computing delta."
  | some d =>
    match applyLoop d root found with
    | .error e => .error e
    | .ok out => .ok (out, found.length)

/-- Terminal outcome of one run: a structural TypeError from loading, an
uncaught ValueError or OverflowError, the early no-changes return, or a
completed run with the written document and the planner state. -/
inductive RunOutcome where
  | structuralError (msg : String)
  | valueError (msg : String)
  | noChanges
  | written (output : JValue) (found : List Found) (latest : Found) (delta : Int)
      (updatedCount : Nat)
deriving Repr

/-- FixtureUpdater.run as one function of the input document, the
optional target and the planning-time clock. -/
def run (input : JValue) (targetOpt : Option DateTime) (now : DateTime) : RunOutcome :=
  match load_fixture input with
  | .error e => .structuralError e
  | .ok data =>
    match collect_dates 0 data with
    | .error e => .valueError e
    | .ok [] => .noChanges
    | .ok (f :: fs) =>
      match apply_shift (some (compute_shift (f :: fs) (targetOf targetOpt now)))
          (.arr data) (f :: fs) with
      | .error e => .valueError e
      | .ok (out, count) =>
        .written out (f :: fs) (pyMax f fs)
          (compute_shift (f :: fs) (targetOf targetOpt now)) count

/-- The first report line of a no-changes run: report logs exactly this
notice when latest_dt, latest_type and delta are still unset, and never
otherwise (errors propagate before report runs; a written run logs the
shift summary instead). -/
def reportNotice : RunOutcome → Option String
  | .noChanges => some "No matching UTC date strings found. No changes made."
  | _ => none

/-- A leaf the applier never touches: a string neither pattern matches,
or a non-string scalar. -/
def nonTimestampLeaf (u : JValue) : Prop :=
  (∃ s, u = .str s ∧ parse_utc_timestamp s = .ok none) ∨
  u = .null ∨ (∃ n, u = .num n) ∨ (∃ b, u = .bool b)

/-- Structural acceptability of one fixture item, as load_fixture checks
it: an object whose fields key holds an object. -/
def itemOk (v : JValue) : Bool :=
  match v with
  | .obj fs =>
    match lookupJ fs "fields" with
    | some (.obj _) => true
    | _ => false
  | _ => false

/-- The TypeError message load_fixture raises for a bad item. -/
def itemErrMsg (idx : Nat) (v : JValue) : String :=
  match v with
  | .obj _ => "Fixture item at index " ++ toString idx ++ " is missing a valid \"fields\" object."
  | _ => "Fixture item at index " ++ toString idx ++ " is not an object."

/-- Leaf test: everything except containers. -/
def isLeafB : JValue → Bool
  | .obj _ => false
  | .arr _ => false
  | _ => true

instance {ε α : Type} [DecidableEq ε] [DecidableEq α] : DecidableEq (Except ε α) := fun a b =>
  match a, b with
  | .ok x, .ok y =>
    if h : x = y then .isTrue (by rw [h])
    else .isFalse (by intro hc; injection hc; exact h (by assumption))
  | .ok _, .error _ => .isFalse (fun hc => Except.noConfusion hc)
  | .error _, .ok _ => .isFalse (fun hc => Except.noConfusion hc)
  | .error x, .error y =>
    if h : x = y then .isTrue (by rw [h])
    else .isFalse (by intro hc; injection hc; exact h (by assumption))

/-! ### Calendar lemmas -/

theorem daysBeforeYear_one : daysBeforeYear 1 = 0 := by decide

theorem div_sub_le (n : Nat) : n / 100 ≤ n / 4 :=
  Nat.div_le_div_left (by norm_num) (by norm_num)

theorem daysBeforeYear_10000 : daysBeforeYear 10000 = 3652059 := by decide

set_option maxHeartbeats 1600000 in
/-- Step lemma: the days before year y+1 exceed the days before year y by
exactly the length of year y. -/
theorem daysBeforeYear_succ (y : Nat) (hy : 1 ≤ y) :
    daysBeforeYear (y + 1) = daysBeforeYear y + daysInYear (isLeap y) := by
  unfold daysBeforeYear daysInYear isLeap
  obtain ⟨n, rfl⟩ : ∃ n, y = n + 1 := ⟨y - 1, by omega⟩
  simp only [Nat.add_sub_cancel]
  split
  next hleap =>
    simp only [Bool.or_eq_true, Bool.and_eq_true, beq_iff_eq, bne_iff_ne, ne_eq] at hleap
    omega
  next hleap =>
    simp only [Bool.or_eq_true, Bool.and_eq_true, beq_iff_eq, bne_iff_ne, ne_eq,
      not_or, not_and, not_not] at hleap
    omega

/-- daysBeforeYear is monotone on years ≥ 1. -/
theorem daysBeforeYear_mono (a b : Nat) (ha : 1 ≤ a) (hab : a ≤ b) :
    daysBeforeYear a ≤ daysBeforeYear b := by
  induction b with
  | zero => omega
  | succ k ih =>
    rcases Nat.lt_or_ge a (k + 1) with h | h
    · have hk : 1 ≤ k := by omega
      have h1 := daysBeforeYear_succ k hk
      have h2 := ih (by omega)
      omega
    · have hae : a = k + 1 := by omega
      rw [hae]

theorem yearOfAux_succ (y n0 : Nat) :
    yearOfAux (y + 1) n0 = if daysBeforeYear (y + 1) ≤ n0 then y + 1 else yearOfAux y n0 :=
  rfl

/-- The descending year search brackets its input day number. -/
theorem yearOfAux_spec (fuel n0 : Nat) (hf : 1 ≤ fuel)
    (hub : n0 < daysBeforeYear (fuel + 1)) :
    1 ≤ yearOfAux fuel n0 ∧ yearOfAux fuel n0 ≤ fuel ∧
    daysBeforeYear (yearOfAux fuel n0) ≤ n0 ∧
    n0 < daysBeforeYear (yearOfAux fuel n0 + 1) := by
  induction fuel with
  | zero => omega
  | succ k ih =>
    rw [yearOfAux_succ]
    by_cases h : daysBeforeYear (k + 1) ≤ n0
    · rw [if_pos h]
      exact ⟨by omega, by omega, h, hub⟩
    · rw [if_neg h]
      have hk : 1 ≤ k := by
        rcases Nat.eq_zero_or_pos k with rfl | hpos
        · exfalso; exact h (by simp [daysBeforeYear_one])
        · exact hpos
      have h2 := ih hk (by omega)
      exact ⟨h2.1, by omega, h2.2.2⟩

/-- Bracketing of the day number by the year that yearOf finds. -/
theorem yearOf_spec (n0 : Nat) (h : n0 < 3652059) :
    1 ≤ yearOf n0 ∧ yearOf n0 ≤ 9999 ∧
    daysBeforeYear (yearOf n0) ≤ n0 ∧ n0 < daysBeforeYear (yearOf n0 + 1) := by
  have h9 : n0 < daysBeforeYear (9999 + 1) := by
    have heq : (9999 : Nat) + 1 = 10000 := by norm_num
    rw [heq, daysBeforeYear_10000]
    omega
  unfold yearOf
  exact yearOfAux_spec 9999 n0 (by omega) h9

/-- The year bracketing a day number is unique, so yearOf finds it. -/
theorem yearOf_eq (y n0 : Nat) (hy1 : 1 ≤ y) (hy2 : y ≤ 9999)
    (hlb : daysBeforeYear y ≤ n0) (hub : n0 < daysBeforeYear (y + 1)) :
    yearOf n0 = y := by
  have hubig : n0 < 3652059 := by
    have hle : daysBeforeYear (y + 1) ≤ daysBeforeYear 10000 :=
      daysBeforeYear_mono (y + 1) 10000 (by omega) (by omega)
    rw [daysBeforeYear_10000] at hle
    omega
  have hspec := yearOf_spec n0 hubig
  rcases Nat.lt_trichotomy (yearOf n0) y with h | h | h
  · exfalso
    have hc : daysBeforeYear (yearOf n0 + 1) ≤ daysBeforeYear y :=
      daysBeforeYear_mono (yearOf n0 + 1) y (by omega) (by omega)
    omega
  · exact h
  · exfalso
    have hc : daysBeforeYear (y + 1) ≤ daysBeforeYear (yearOf n0) :=
      daysBeforeYear_mono (y + 1) (yearOf n0) (by omega) (by omega)
    omega

set_option maxRecDepth 4000 in
/-- Within one year, monthDayOfDoy decomposes a 1-based day of year into a
valid month and day that recompose to the same day of year. -/
theorem monthDayOfDoy_spec : ∀ (leap : Bool), ∀ doy : Nat, doy < 367 →
    1 ≤ doy → doy ≤ daysInYear leap →
    1 ≤ (monthDayOfDoy leap doy).1 ∧ (monthDayOfDoy leap doy).1 ≤ 12 ∧
    1 ≤ (monthDayOfDoy leap doy).2 ∧
    (monthDayOfDoy leap doy).2 ≤ daysInMonth leap (monthDayOfDoy leap doy).1 ∧
    daysBeforeMonth leap (monthDayOfDoy leap doy).1 + (monthDayOfDoy leap doy).2 = doy := by
  decide

set_option maxRecDepth 4000 in
/-- Recomposition: a valid month and day map back to their day of year. -/
theorem monthDayOfDoy_recompose : ∀ (leap : Bool), ∀ m : Nat, m < 13 → ∀ d : Nat, d < 32 →
    (1 ≤ m ∧ 1 ≤ d ∧ d ≤ daysInMonth leap m) →
    monthDayOfDoy leap (daysBeforeMonth leap m + d) = (m, d) := by
  decide

/-- A month never extends past the end of the year. -/
theorem daysBeforeMonth_add_le : ∀ (leap : Bool), ∀ m : Nat, m < 13 → 1 ≤ m →
    daysBeforeMonth leap m + daysInMonth leap m ≤ daysInYear leap := by
  decide

theorem daysInMonth_le (leap : Bool) (m : Nat) : daysInMonth leap m ≤ 31 := by
  unfold daysInMonth
  split_ifs <;> omega

/-- Round trip: converting a valid date to its ordinal and back is the
identity. -/
theorem ord2ymd_ymd2ord (y m d : Nat) (h : validYMD y m d) :
    ord2ymd (ymd2ord y m d) = (y, m, d) := by
  obtain ⟨hy1, hy2, hm1, hm2, hd1, hd2⟩ := h
  simp only [ord2ymd, ymd2ord]
  have hmd : daysBeforeMonth (isLeap y) m + d ≤ daysInYear (isLeap y) := by
    have h1 := daysBeforeMonth_add_le (isLeap y) m (by omega) hm1
    omega
  have hstep := daysBeforeYear_succ y hy1
  have hyq : yearOf (daysBeforeYear y + daysBeforeMonth (isLeap y) m + d - 1) = y := by
    apply yearOf_eq y _ hy1 hy2
    · omega
    · omega
  rw [hyq]
  have hdoy : daysBeforeYear y + daysBeforeMonth (isLeap y) m + d - 1 -
      daysBeforeYear y + 1 = daysBeforeMonth (isLeap y) m + d := by omega
  rw [hdoy]
  have hrec := monthDayOfDoy_recompose (isLeap y) m (by omega) d (by
    have h31 := daysInMonth_le (isLeap y) m
    omega) ⟨hm1, hd1, hd2⟩
  rw [hrec]

/-- Round trip: converting an in-range ordinal to a date and back is the
identity, and the resulting date is valid. -/
theorem ymd2ord_ord2ymd (n : Nat) (h1 : 1 ≤ n) (h2 : n ≤ 3652059) :
    validYMD (ord2ymd n).1 (ord2ymd n).2.1 (ord2ymd n).2.2 ∧
    ymd2ord (ord2ymd n).1 (ord2ymd n).2.1 (ord2ymd n).2.2 = n := by
  have hspec := yearOf_spec (n - 1) (by omega)
  simp only [ord2ymd, ymd2ord]
  set y := yearOf (n - 1) with hy
  have hstep := daysBeforeYear_succ y (by omega)
  set doy := n - 1 - daysBeforeYear y + 1 with hdoy
  have hdoy1 : 1 ≤ doy := by omega
  have hdoy2 : doy ≤ daysInYear (isLeap y) := by omega
  have hdoy367 : doy < 367 := by
    have : daysInYear (isLeap y) ≤ 366 := by
      unfold daysInYear
      split <;> omega
    omega
  have hmd := monthDayOfDoy_spec (isLeap y) doy hdoy367 hdoy1 hdoy2
  refine ⟨⟨?_, ?_, ?_, ?_, ?_, ?_⟩, ?_⟩
  · omega
  · omega
  · exact hmd.1
  · exact hmd.2.1
  · exact hmd.2.2.1
  · exact hmd.2.2.2.1
  · have hr := hmd.2.2.2.2
    omega

/-! ### Datetime instant lemmas -/

theorem ymd2ord_pos (y m d : Nat) (h : validYMD y m d) : 1 ≤ ymd2ord y m d := by
  obtain ⟨_, _, _, _, hd1, _⟩ := h
  unfold ymd2ord
  omega

theorem ymd2ord_le (y m d : Nat) (h : validYMD y m d) : ymd2ord y m d ≤ 3652059 := by
  obtain ⟨hy1, hy2, hm1, hm2, hd1, hd2⟩ := h
  have hmd := daysBeforeMonth_add_le (isLeap y) m (by omega) hm1
  have hstep := daysBeforeYear_succ y hy1
  have hmono := daysBeforeYear_mono (y + 1) 10000 (by omega) (by omega)
  rw [daysBeforeYear_10000] at hmono
  unfold ymd2ord
  omega

theorem toMicros_lt (t : DateTime) (h : validDT t) : toMicros t < maxMicros := by
  obtain ⟨hymd, hh, hmi, hs, hus⟩ := h
  have h1 := ymd2ord_pos t.year t.month t.day hymd
  have h2 := ymd2ord_le t.year t.month t.day hymd
  unfold toMicros maxMicros
  omega

/-- Decomposing the instant of a valid datetime recovers the datetime. -/
theorem fromMicros_toMicros (t : DateTime) (h : validDT t) :
    fromMicros (toMicros t) = t := by
  obtain ⟨y, mo, d, hh, mi, s, us⟩ := t
  obtain ⟨hymd, hhh, hmi, hs, hus⟩ := h
  simp only at hhh hmi hs hus
  have hpos := ymd2ord_pos y mo d hymd
  have hrt := ord2ymd_ymd2ord y mo d hymd
  simp only [toMicros, fromMicros]
  have hdiv : ((ymd2ord y mo d - 1) * 86400000000 +
      ((hh * 60 + mi) * 60 + s) * 1000000 + us) / 86400000000 + 1 = ymd2ord y mo d := by
    omega
  have hmod : ((ymd2ord y mo d - 1) * 86400000000 +
      ((hh * 60 + mi) * 60 + s) * 1000000 + us) % 86400000000 =
      ((hh * 60 + mi) * 60 + s) * 1000000 + us := by
    omega
  rw [hdiv, hmod, hrt]
  simp only [DateTime.mk.injEq]
  refine ⟨trivial, trivial, trivial, ?_, ?_, ?_, ?_⟩ <;> omega

/-- Recomposing the instant of a decomposed in-range instant gives it back,
and the decomposition is a valid datetime. -/
theorem toMicros_fromMicros (n : Nat) (h : n < maxMicros) :
    toMicros (fromMicros n) = n ∧ validDT (fromMicros n) := by
  unfold maxMicros at h
  have hdays : n / 86400000000 + 1 ≤ 3652059 := by omega
  have hrt := ymd2ord_ord2ymd (n / 86400000000 + 1) (by omega) hdays
  simp only [fromMicros, toMicros, validDT]
  constructor
  · rw [hrt.2]
    omega
  · refine ⟨hrt.1, ?_, ?_, ?_, ?_⟩ <;> omega

/-! ### Digit string lemmas -/

theorem digitVal_digitChar : ∀ r : Nat, r < 10 → digitVal (digitChar r) = r := by decide

theorem isDig_digitChar : ∀ r : Nat, r < 10 → isDig (digitChar r) = true := by decide

theorem isDig_bounds (c : Char) (h : isDig c = true) : 48 ≤ c.toNat ∧ c.toNat ≤ 57 := by
  unfold isDig at h
  simp only [Bool.and_eq_true, decide_eq_true_eq] at h
  exact h

theorem digitVal_lt (c : Char) (h : isDig c = true) : digitVal c < 10 := by
  have hb := isDig_bounds c h
  unfold digitVal
  omega

theorem digitChar_digitVal (c : Char) (h : isDig c = true) : digitChar (digitVal c) = c := by
  have hb := isDig_bounds c h
  have hofn := (Char.ofNat_toNat c).symm
  have hcases : c.toNat = 48 ∨ c.toNat = 49 ∨ c.toNat = 50 ∨ c.toNat = 51 ∨ c.toNat = 52 ∨
      c.toNat = 53 ∨ c.toNat = 54 ∨ c.toNat = 55 ∨ c.toNat = 56 ∨ c.toNat = 57 := by omega
  unfold digitVal
  rcases hcases with h1 | h1 | h1 | h1 | h1 | h1 | h1 | h1 | h1 | h1 <;>
    (rw [h1] at hofn ⊢; rw [hofn]; decide)

theorem natOfDigits_append (xs : List Char) (c : Char) :
    natOfDigits (xs ++ [c]) = 10 * natOfDigits xs + digitVal c := by
  unfold natOfDigits
  rw [List.foldl_append]
  rfl

theorem padDigits_length (k n : Nat) : (padDigits k n).length = k := by
  induction k generalizing n with
  | zero => rfl
  | succ m ih => simp [padDigits, ih]

theorem padDigits_all_isDig (k n : Nat) : (padDigits k n).all isDig = true := by
  induction k generalizing n with
  | zero => rfl
  | succ m ih =>
    rw [padDigits, List.all_append]
    rw [ih]
    simp [isDig_digitChar (n % 10) (by omega)]

theorem natOfDigits_padDigits (k n : Nat) (h : n < 10 ^ k) :
    natOfDigits (padDigits k n) = n := by
  induction k generalizing n with
  | zero =>
    have hn : n = 0 := by simpa using h
    simp [hn, padDigits, natOfDigits]
  | succ m ih =>
    have hpow : 10 ^ (m + 1) = 10 ^ m * 10 := pow_succ 10 m
    have hdiv : n / 10 < 10 ^ m := by omega
    rw [padDigits, natOfDigits_append, ih (n / 10) hdiv,
      digitVal_digitChar (n % 10) (by omega)]
    omega

theorem padDigits_natOfDigits (cs : List Char) (h : cs.all isDig = true) :
    padDigits cs.length (natOfDigits cs) = cs := by
  induction cs using List.reverseRecOn with
  | nil => rfl
  | append_singleton xs c ih =>
    rw [List.all_append] at h
    simp only [Bool.and_eq_true, List.all_cons, List.all_nil, Bool.and_true] at h
    obtain ⟨hxs, hc⟩ := h
    have hv := digitVal_lt c hc
    have hlen : (xs ++ [c]).length = xs.length + 1 := by simp
    rw [hlen, natOfDigits_append, padDigits]
    have hdiv : (10 * natOfDigits xs + digitVal c) / 10 = natOfDigits xs := by omega
    have hmod : (10 * natOfDigits xs + digitVal c) % 10 = digitVal c := by omega
    rw [hdiv, hmod, ih hxs, digitChar_digitVal c hc]

/-! ### Pattern matcher lemmas -/

theorem dropLast_of_getLast (l : List Char) (a : Char) (h : l.getLast? = some a) :
    l.dropLast ++ [a] = l := by
  have hne : l ≠ [] := by
    intro he; rw [he] at h; simp at h
  have hg : l.getLast hne = a := by
    have hq := List.getLast?_eq_getLast l hne
    rw [hq] at h
    exact Option.some_inj.mp h
  rw [← hg]
  exact List.dropLast_append_getLast hne

/-- Structure of a successful fraction-and-Z tail match. -/
theorem fracOf_eq_some (rest digs : List Char) (h : fracOf rest = some digs) :
    (digs = [] ∧ rest = ['Z']) ∨
    (1 ≤ digs.length ∧ digs.length ≤ 6 ∧ digs.all isDig = true ∧
      rest = ['.'] ++ digs ++ ['Z']) := by
  unfold fracOf at h
  split_ifs at h with hz hdot hcond
  · left
    have hd : digs = [] := by simpa using h.symm
    exact ⟨hd, hz⟩
  · right
    simp only [Bool.and_eq_true, beq_iff_eq, decide_eq_true_eq] at hcond
    obtain ⟨⟨⟨hlast, h1⟩, h6⟩, hall⟩ := hcond
    have hdg : rest.tail.dropLast = digs := by simpa using h
    rw [hdg] at h1 h6 hall
    refine ⟨h1, h6, hall, ?_⟩
    have htl : rest.tail.dropLast ++ ['Z'] = rest.tail := dropLast_of_getLast _ 'Z' hlast
    have hcons : '.' :: rest.tail = rest := List.cons_head?_tail hdot
    rw [hdg] at htl
    simp only [List.cons_append, List.nil_append]
    rw [htl, hcons]

theorem fracOf_z : fracOf ['Z'] = some [] := rfl

/-- Building a fraction tail from one to six digits matches back. -/
theorem fracOf_dot (digs : List Char) (h1 : 1 ≤ digs.length) (h6 : digs.length ≤ 6)
    (hall : digs.all isDig = true) : fracOf (['.'] ++ digs ++ ['Z']) = some digs := by
  have hz : (digs ++ ['Z']).getLast? = some 'Z' := List.getLast?_concat digs
  have hdl : (digs ++ ['Z']).dropLast = digs := List.dropLast_concat
  have hne : (['.'] ++ digs ++ ['Z'] : List Char) ≠ ['Z'] := by
    intro he
    have hc := congrArg List.length he
    simp only [List.length_append, List.length_cons, List.length_nil] at hc
    omega
  have hhead : (['.'] ++ digs ++ ['Z'] : List Char).head? = some '.' := by simp
  have htail : (['.'] ++ digs ++ ['Z'] : List Char).tail = digs ++ ['Z'] := by simp
  unfold fracOf
  rw [if_neg hne, if_pos hhead, htail, hdl]
  rw [if_pos]
  rw [hz]
  simp only [Bool.and_eq_true, beq_iff_eq, decide_eq_true_eq]
  exact ⟨⟨⟨trivial, h1⟩, h6⟩, hall⟩

theorem natOfDigits_two (a b : Char) :
    natOfDigits [a, b] = 10 * digitVal a + digitVal b := by
  simp [natOfDigits, List.foldl]

theorem natOfDigits_four (a b c d : Char) :
    natOfDigits [a, b, c, d] =
    10 * (10 * (10 * digitVal a + digitVal b) + digitVal c) + digitVal d := by
  simp [natOfDigits, List.foldl]

theorem natOfDigits_two_lt (a b : Char) (ha : isDig a = true) (hb : isDig b = true) :
    natOfDigits [a, b] < 100 := by
  have h1 := digitVal_lt a ha
  have h2 := digitVal_lt b hb
  rw [natOfDigits_two]
  omega

theorem natOfDigits_four_lt (a b c d : Char) (ha : isDig a = true) (hb : isDig b = true)
    (hc : isDig c = true) (hd : isDig d = true) : natOfDigits [a, b, c, d] < 10000 := by
  have h1 := digitVal_lt a ha
  have h2 := digitVal_lt b hb
  have h3 := digitVal_lt c hc
  have h4 := digitVal_lt d hd
  rw [natOfDigits_four]
  omega

theorem padDigits_two_eq (a b : Char) (ha : isDig a = true) (hb : isDig b = true) :
    padDigits 2 (natOfDigits [a, b]) = [a, b] := by
  have h := padDigits_natOfDigits [a, b] (by simp [ha, hb])
  simpa using h

theorem padDigits_four_eq (a b c d : Char) (ha : isDig a = true) (hb : isDig b = true)
    (hc : isDig c = true) (hd : isDig d = true) :
    padDigits 4 (natOfDigits [a, b, c, d]) = [a, b, c, d] := by
  have h := padDigits_natOfDigits [a, b, c, d] (by simp [ha, hb, hc, hd])
  simpa using h

theorem exists_len2 (l : List Char) (h : l.length = 2) : ∃ a b, l = [a, b] := by
  rcases l with _ | ⟨a, _ | ⟨b, _ | ⟨c, t⟩⟩⟩
  · simp at h
  · simp at h
  · exact ⟨a, b, rfl⟩
  · simp at h

theorem exists_len4 (l : List Char) (h : l.length = 4) : ∃ a b c d, l = [a, b, c, d] := by
  rcases l with _ | ⟨a, _ | ⟨b, _ | ⟨c, _ | ⟨d, _ | ⟨e, t⟩⟩⟩⟩⟩
  · simp at h
  · simp at h
  · simp at h
  · simp at h
  · exact ⟨a, b, c, d, rfl⟩
  · simp at h

/-- Structure of a successful DATETIME_FIELD_PATTERN body match. -/
theorem dtMatchCore_eq_some (cs : List Char) (y mo d h mi se : Nat) (digs : List Char)
    (hm : dtMatchCore cs = some (y, mo, d, h, mi, se, digs)) :
    y < 10000 ∧ mo < 100 ∧ d < 100 ∧ h < 100 ∧ mi < 100 ∧ se < 100 ∧
    digs.length ≤ 6 ∧ digs.all isDig = true ∧
    cs = padDigits 4 y ++ ['-'] ++ padDigits 2 mo ++ ['-'] ++ padDigits 2 d ++ ['T'] ++
      padDigits 2 h ++ [':'] ++ padDigits 2 mi ++ [':'] ++ padDigits 2 se ++
      (if digs.length = 0 then ['Z'] else ['.'] ++ digs ++ ['Z']) := by
  unfold dtMatchCore at hm
  split at hm
  next y1 y2 y3 y4 m1 m2 d1 d2 h1 h2 i1 i2 s1 s2 rest =>
    split at hm
    next hcond =>
      simp only [Bool.and_eq_true] at hcond
      obtain ⟨⟨⟨⟨⟨⟨⟨⟨⟨⟨⟨⟨⟨hy1, hy2⟩, hy3⟩, hy4⟩, hm1⟩, hm2⟩, hd1⟩, hd2⟩,
        hh1⟩, hh2⟩, hi1⟩, hi2⟩, hs1⟩, hs2⟩ := hcond
      split at hm
      next digs' heq =>
        simp only [Option.some.injEq, Prod.mk.injEq] at hm
        obtain ⟨hy, hmo, hd, hh, hmi, hse, hdg⟩ := hm
        subst hy hmo hd hh hmi hse hdg
        refine ⟨natOfDigits_four_lt y1 y2 y3 y4 hy1 hy2 hy3 hy4,
          natOfDigits_two_lt m1 m2 hm1 hm2, natOfDigits_two_lt d1 d2 hd1 hd2,
          natOfDigits_two_lt h1 h2 hh1 hh2, natOfDigits_two_lt i1 i2 hi1 hi2,
          natOfDigits_two_lt s1 s2 hs1 hs2, ?_, ?_, ?_⟩
        · rcases fracOf_eq_some rest digs' heq with ⟨hd0, _⟩ | ⟨_, h6, _, _⟩
          · rw [hd0]; simp
          · exact h6
        · rcases fracOf_eq_some rest digs' heq with ⟨hd0, _⟩ | ⟨_, _, hall, _⟩
          · rw [hd0]; simp
          · exact hall
        · rw [padDigits_four_eq y1 y2 y3 y4 hy1 hy2 hy3 hy4,
            padDigits_two_eq m1 m2 hm1 hm2, padDigits_two_eq d1 d2 hd1 hd2,
            padDigits_two_eq h1 h2 hh1 hh2, padDigits_two_eq i1 i2 hi1 hi2,
            padDigits_two_eq s1 s2 hs1 hs2]
          rcases fracOf_eq_some rest digs' heq with ⟨hd0, hrest⟩ | ⟨h1len, _, _, hrest⟩
          · subst hd0
            rw [hrest]
            simp
          · rw [hrest]
            rw [if_neg (by omega)]
            simp
      next heq => simp at hm
    next => simp at hm
  next => simp at hm

/-- Structure of a successful DATE_FIELD_PATTERN body match. -/
theorem dateMatchCore_eq_some (cs : List Char) (y mo d : Nat)
    (hm : dateMatchCore cs = some (y, mo, d)) :
    y < 10000 ∧ mo < 100 ∧ d < 100 ∧
    cs = padDigits 4 y ++ ['-'] ++ padDigits 2 mo ++ ['-'] ++ padDigits 2 d := by
  unfold dateMatchCore at hm
  split at hm
  next y1 y2 y3 y4 m1 m2 d1 d2 =>
    split at hm
    next hcond =>
      simp only [Bool.and_eq_true] at hcond
      obtain ⟨⟨⟨⟨⟨⟨⟨hy1, hy2⟩, hy3⟩, hy4⟩, hm1⟩, hm2⟩, hd1⟩, hd2⟩ := hcond
      simp only [Option.some.injEq, Prod.mk.injEq] at hm
      obtain ⟨hy, hmo, hd⟩ := hm
      subst hy hmo hd
      refine ⟨natOfDigits_four_lt y1 y2 y3 y4 hy1 hy2 hy3 hy4,
        natOfDigits_two_lt m1 m2 hm1 hm2, natOfDigits_two_lt d1 d2 hd1 hd2, ?_⟩
      rw [padDigits_four_eq y1 y2 y3 y4 hy1 hy2 hy3 hy4,
        padDigits_two_eq m1 m2 hm1 hm2, padDigits_two_eq d1 d2 hd1 hd2]
      simp
    next => simp at hm
  next => simp at hm

theorem pow4_nat : (10 : Nat) ^ 4 = 10000 := by norm_num

theorem pow2_nat : (10 : Nat) ^ 2 = 100 := by norm_num

/-- Building a datetime text from padded in-range components matches back,
with the fraction tail decided by fracOf. -/
theorem dtMatchCore_build (y mo d h mi se : Nat) (tail : List Char)
    (hy : y < 10000) (hmo : mo < 100) (hd : d < 100) (hh : h < 100)
    (hmi : mi < 100) (hse : se < 100) :
    dtMatchCore (padDigits 4 y ++ ['-'] ++ padDigits 2 mo ++ ['-'] ++ padDigits 2 d ++
      ['T'] ++ padDigits 2 h ++ [':'] ++ padDigits 2 mi ++ [':'] ++ padDigits 2 se ++ tail) =
    (fracOf tail).map (fun digs => (y, mo, d, h, mi, se, digs)) := by
  obtain ⟨a1, a2, a3, a4, hy4⟩ := exists_len4 (padDigits 4 y) (padDigits_length 4 y)
  obtain ⟨b1, b2, hb2⟩ := exists_len2 (padDigits 2 mo) (padDigits_length 2 mo)
  obtain ⟨c1, c2, hc2⟩ := exists_len2 (padDigits 2 d) (padDigits_length 2 d)
  obtain ⟨e1, e2, he2⟩ := exists_len2 (padDigits 2 h) (padDigits_length 2 h)
  obtain ⟨f1, f2, hf2⟩ := exists_len2 (padDigits 2 mi) (padDigits_length 2 mi)
  obtain ⟨g1, g2, hg2⟩ := exists_len2 (padDigits 2 se) (padDigits_length 2 se)
  have hall4 := padDigits_all_isDig 4 y
  have hallb := padDigits_all_isDig 2 mo
  have hallc := padDigits_all_isDig 2 d
  have halle := padDigits_all_isDig 2 h
  have hallf := padDigits_all_isDig 2 mi
  have hallg := padDigits_all_isDig 2 se
  rw [hy4] at hall4
  rw [hb2] at hallb
  rw [hc2] at hallc
  rw [he2] at halle
  rw [hf2] at hallf
  rw [hg2] at hallg
  simp only [List.all_cons, List.all_nil, Bool.and_eq_true,
    Bool.and_true] at hall4 hallb hallc halle hallf hallg
  obtain ⟨ha1, ha2, ha3, ha4⟩ := hall4
  obtain ⟨hb1d, hb2d⟩ := hallb
  obtain ⟨hc1d, hc2d⟩ := hallc
  obtain ⟨he1d, he2d⟩ := halle
  obtain ⟨hf1d, hf2d⟩ := hallf
  obtain ⟨hg1d, hg2d⟩ := hallg
  have hv4 : natOfDigits [a1, a2, a3, a4] = y := by
    rw [← hy4]; exact natOfDigits_padDigits 4 y (by rw [pow4_nat]; exact hy)
  have hvb : natOfDigits [b1, b2] = mo := by
    rw [← hb2]; exact natOfDigits_padDigits 2 mo (by rw [pow2_nat]; exact hmo)
  have hvc : natOfDigits [c1, c2] = d := by
    rw [← hc2]; exact natOfDigits_padDigits 2 d (by rw [pow2_nat]; exact hd)
  have hve : natOfDigits [e1, e2] = h := by
    rw [← he2]; exact natOfDigits_padDigits 2 h (by rw [pow2_nat]; exact hh)
  have hvf : natOfDigits [f1, f2] = mi := by
    rw [← hf2]; exact natOfDigits_padDigits 2 mi (by rw [pow2_nat]; exact hmi)
  have hvg : natOfDigits [g1, g2] = se := by
    rw [← hg2]; exact natOfDigits_padDigits 2 se (by rw [pow2_nat]; exact hse)
  rw [hy4, hb2, hc2, he2, hf2, hg2]
  simp only [List.cons_append, List.nil_append]
  simp only [dtMatchCore]
  rw [if_pos (by simp [ha1, ha2, ha3, ha4, hb1d, hb2d, hc1d, hc2d, he1d, he2d,
    hf1d, hf2d, hg1d, hg2d])]
  rw [hv4, hvb, hvc, hve, hvf, hvg]
  cases hfo : fracOf tail with
  | some digs => simp
  | none => simp

/-- Building a date-only text from padded in-range components matches back. -/
theorem dateMatchCore_build (y mo d : Nat) (hy : y < 10000) (hmo : mo < 100)
    (hd : d < 100) :
    dateMatchCore (padDigits 4 y ++ ['-'] ++ padDigits 2 mo ++ ['-'] ++ padDigits 2 d) =
    some (y, mo, d) := by
  obtain ⟨a1, a2, a3, a4, hy4⟩ := exists_len4 (padDigits 4 y) (padDigits_length 4 y)
  obtain ⟨b1, b2, hb2⟩ := exists_len2 (padDigits 2 mo) (padDigits_length 2 mo)
  obtain ⟨c1, c2, hc2⟩ := exists_len2 (padDigits 2 d) (padDigits_length 2 d)
  have hall4 := padDigits_all_isDig 4 y
  have hallb := padDigits_all_isDig 2 mo
  have hallc := padDigits_all_isDig 2 d
  rw [hy4] at hall4
  rw [hb2] at hallb
  rw [hc2] at hallc
  simp only [List.all_cons, List.all_nil, Bool.and_eq_true,
    Bool.and_true] at hall4 hallb hallc
  obtain ⟨ha1, ha2, ha3, ha4⟩ := hall4
  obtain ⟨hb1d, hb2d⟩ := hallb
  obtain ⟨hc1d, hc2d⟩ := hallc
  have hv4 : natOfDigits [a1, a2, a3, a4] = y := by
    rw [← hy4]; exact natOfDigits_padDigits 4 y (by rw [pow4_nat]; exact hy)
  have hvb : natOfDigits [b1, b2] = mo := by
    rw [← hb2]; exact natOfDigits_padDigits 2 mo (by rw [pow2_nat]; exact hmo)
  have hvc : natOfDigits [c1, c2] = d := by
    rw [← hc2]; exact natOfDigits_padDigits 2 d (by rw [pow2_nat]; exact hd)
  rw [hy4, hb2, hc2]
  simp only [List.cons_append, List.nil_append]
  simp only [dateMatchCore]
  rw [if_pos (by simp [ha1, ha2, ha3, ha4, hb1d, hb2d, hc1d, hc2d])]
  rw [hv4, hvb, hvc]

/-! ### Fraction padding and truncation lemmas -/

theorem padFraction_eq (digs : List Char) (h : digs.length ≤ 6) :
    padFraction digs = digs ++ List.replicate (6 - digs.length) '0' := by
  unfold padFraction
  rw [List.take_append_eq_append_take, List.take_of_length_le h, List.take_replicate]
  congr 1
  congr 1
  omega

theorem padFraction_length (digs : List Char) (h : digs.length ≤ 6) :
    (padFraction digs).length = 6 := by
  rw [padFraction_eq digs h]
  simp
  omega

theorem padFraction_all (digs : List Char) (h : digs.length ≤ 6)
    (hall : digs.all isDig = true) : (padFraction digs).all isDig = true := by
  rw [padFraction_eq digs h, List.all_append]
  rw [hall]
  simp
  exact Or.inr (by decide)

theorem natOfDigits_cons (c : Char) (cs : List Char) :
    natOfDigits (c :: cs) = natOfDigits cs + digitVal c * 10 ^ cs.length := by
  have hgen : ∀ (ys : List Char) (a : Nat),
      ys.foldl (fun a c => 10 * a + digitVal c) a =
      a * 10 ^ ys.length + ys.foldl (fun a c => 10 * a + digitVal c) 0 := by
    intro ys
    induction ys with
    | nil => intro a; simp
    | cons u us ih =>
      intro a
      simp only [List.foldl_cons, List.length_cons]
      rw [ih (10 * a + digitVal u), ih (10 * 0 + digitVal u)]
      ring
  unfold natOfDigits
  simp only [List.foldl_cons]
  rw [hgen cs (10 * 0 + digitVal c)]
  ring

theorem natOfDigits_append_general (xs ys : List Char) :
    natOfDigits (xs ++ ys) = natOfDigits xs * 10 ^ ys.length + natOfDigits ys := by
  induction xs with
  | nil => simp [natOfDigits]
  | cons c cs ih =>
    rw [List.cons_append, natOfDigits_cons, ih, natOfDigits_cons]
    simp only [List.length_append]
    ring

theorem natOfDigits_lt (cs : List Char) (h : cs.all isDig = true) :
    natOfDigits cs < 10 ^ cs.length := by
  induction cs with
  | nil => simp [natOfDigits]
  | cons c cs ih =>
    simp only [List.all_cons, Bool.and_eq_true] at h
    have h1 := digitVal_lt c h.1
    have h2 := ih h.2
    rw [natOfDigits_cons]
    simp only [List.length_cons, pow_succ]
    nlinarith

theorem padDigits_zero (k : Nat) : padDigits k 0 = List.replicate k '0' := by
  induction k with
  | zero => rfl
  | succ m ih =>
    rw [padDigits, Nat.zero_div, Nat.zero_mod, ih]
    have : digitChar 0 = '0' := rfl
    rw [this, ← List.replicate_succ']

theorem padDigits_split (a b n : Nat) :
    padDigits (a + b) n = padDigits a (n / 10 ^ b) ++ padDigits b (n % 10 ^ b) := by
  induction b generalizing n with
  | zero => simp [padDigits]
  | succ m ih =>
    have h1 : n / 10 / 10 ^ m = n / 10 ^ (m + 1) := by
      rw [Nat.div_div_eq_div_mul, pow_succ, mul_comm (10 ^ m) 10, mul_comm (10 : Nat) (10 ^ m)]
    have h2 : n % 10 ^ (m + 1) / 10 = n / 10 % 10 ^ m := by
      rw [pow_succ, mul_comm]
      exact Nat.mod_mul_right_div_self n 10 (10 ^ m)
    have h3 : n % 10 ^ (m + 1) % 10 = n % 10 := by
      apply Nat.mod_mod_of_dvd
      exact dvd_pow_self 10 (by omega)
    show padDigits (a + m + 1) n = _
    rw [padDigits, ih (n / 10), padDigits, h1, h2, h3, List.append_assoc]

/-! ### Parse-level lemmas -/

theorem stripNL_eq (cs : List Char) (h : cs.getLast? ≠ some '\n') : stripNL cs = cs := by
  unfold stripNL
  rw [if_neg]
  simp only [beq_iff_eq]
  exact h

/-- A datetime match ends in Z, so the newline strip is the identity. -/
theorem dtMatch_getLast (cs : List Char) (y mo d h mi se : Nat) (digs : List Char)
    (hm : dtMatchCore cs = some (y, mo, d, h, mi, se, digs)) :
    cs.getLast? = some 'Z' := by
  have hs := (dtMatchCore_eq_some cs y mo d h mi se digs hm).2.2.2.2.2.2.2.2
  rw [hs]
  by_cases h0 : digs.length = 0
  · rw [if_pos h0]
    rw [show padDigits 4 y ++ ['-'] ++ padDigits 2 mo ++ ['-'] ++ padDigits 2 d ++ ['T'] ++
      padDigits 2 h ++ [':'] ++ padDigits 2 mi ++ [':'] ++ padDigits 2 se ++ ['Z'] =
      (padDigits 4 y ++ ['-'] ++ padDigits 2 mo ++ ['-'] ++ padDigits 2 d ++ ['T'] ++
      padDigits 2 h ++ [':'] ++ padDigits 2 mi ++ [':'] ++ padDigits 2 se) ++ ['Z'] by rfl]
    exact List.getLast?_concat _
  · rw [if_neg h0]
    rw [show padDigits 4 y ++ ['-'] ++ padDigits 2 mo ++ ['-'] ++ padDigits 2 d ++ ['T'] ++
      padDigits 2 h ++ [':'] ++ padDigits 2 mi ++ [':'] ++ padDigits 2 se ++
      (['.'] ++ digs ++ ['Z']) =
      (padDigits 4 y ++ ['-'] ++ padDigits 2 mo ++ ['-'] ++ padDigits 2 d ++ ['T'] ++
      padDigits 2 h ++ [':'] ++ padDigits 2 mi ++ [':'] ++ padDigits 2 se ++
      ['.'] ++ digs) ++ ['Z'] by simp [List.append_assoc]]
    exact List.getLast?_concat _

theorem newline_not_dig : isDig '\n' = false := by decide

/-- A date-only match ends in a digit, so the newline strip is the identity. -/
theorem dateMatch_getLast (cs : List Char) (y mo d : Nat)
    (hm : dateMatchCore cs = some (y, mo, d)) :
    cs.getLast? ≠ some '\n' := by
  have hs := (dateMatchCore_eq_some cs y mo d hm).2.2.2
  obtain ⟨c1, c2, hc⟩ := exists_len2 (padDigits 2 d) (padDigits_length 2 d)
  have hall := padDigits_all_isDig 2 d
  rw [hc] at hall
  simp only [List.all_cons, List.all_nil, Bool.and_eq_true, Bool.and_true] at hall
  rw [hs, hc]
  rw [show padDigits 4 y ++ ['-'] ++ padDigits 2 mo ++ ['-'] ++ [c1, c2] =
    (padDigits 4 y ++ ['-'] ++ padDigits 2 mo ++ ['-'] ++ [c1]) ++ [c2] by
      simp [List.append_assoc]]
  rw [List.getLast?_concat]
  intro he
  have hc2 : c2 = '\n' := by injection he
  rw [hc2] at hall
  have := hall.2
  rw [newline_not_dig] at this
  exact Bool.false_ne_true this

/-- A datetime match needs at least twenty characters. -/
theorem dtMatchCore_min_length (cs : List Char) (y mo d h mi se : Nat) (digs : List Char)
    (hm : dtMatchCore cs = some (y, mo, d, h, mi, se, digs)) : 20 ≤ cs.length := by
  have hs := (dtMatchCore_eq_some cs y mo d h mi se digs hm).2.2.2.2.2.2.2.2
  have hlen := congrArg List.length hs
  simp only [List.length_append, padDigits_length, List.length_cons, List.length_nil] at hlen
  by_cases h0 : digs.length = 0
  · rw [if_pos h0] at hlen
    simp at hlen
    omega
  · rw [if_neg h0] at hlen
    simp at hlen
    omega

/-- A date-only match has exactly ten characters. -/
theorem dateMatchCore_len (cs : List Char) (y mo d : Nat)
    (hm : dateMatchCore cs = some (y, mo, d)) : cs.length = 10 := by
  have hs := (dateMatchCore_eq_some cs y mo d hm).2.2.2
  have hlen := congrArg List.length hs
  simp only [List.length_append, padDigits_length, List.length_cons, List.length_nil] at hlen
  omega

/-- The two patterns never match the same string. -/
theorem dtMatchCore_none_of_short (cs : List Char) (h : cs.length < 20) :
    dtMatchCore cs = none := by
  cases hm : dtMatchCore cs with
  | none => rfl
  | some r =>
    obtain ⟨y, mo, d, hh, mi, se, digs⟩ := r
    have := dtMatchCore_min_length cs y mo d hh mi se digs hm
    omega

/-- parse on a strictly matching datetime text reduces to the
fromisoformat outcome. -/
theorem parse_eq_dt (s : String) (y mo d h mi se : Nat) (digs : List Char)
    (hm : dtMatchCore s.data = some (y, mo, d, h, mi, se, digs)) :
    parse_utc_timestamp s =
      match fromIsoComponents y mo d h mi se (natOfDigits (padFraction digs)) with
      | .ok t => .ok (some ⟨t, .dateTime, digs.length⟩)
      | .error e => .error e := by
  have hstrip : stripNL s.data = s.data := by
    apply stripNL_eq
    rw [dtMatch_getLast s.data y mo d h mi se digs hm]
    intro he
    have : 'Z' = '\n' := by injection he
    exact absurd this (by decide)
  unfold parse_utc_timestamp reMatchDT
  rw [hstrip, hm]

/-- parse on a strictly matching date-only text reduces to the
fromisoformat outcome at midnight. -/
theorem parse_eq_date (s : String) (y mo d : Nat)
    (hm : dateMatchCore s.data = some (y, mo, d)) :
    parse_utc_timestamp s =
      match fromIsoComponents y mo d 0 0 0 0 with
      | .ok t => .ok (some ⟨t, .dateOnly, 0⟩)
      | .error e => .error e := by
  have hstrip : stripNL s.data = s.data :=
    stripNL_eq s.data (dateMatch_getLast s.data y mo d hm)
  have hlen : s.data.length = 10 := dateMatchCore_len s.data y mo d hm
  have hdt : dtMatchCore s.data = none := dtMatchCore_none_of_short s.data (by omega)
  unfold parse_utc_timestamp reMatchDT reMatchDate
  rw [hstrip, hdt, hm]

/-- parse on a text neither pattern matches is the not-recognized result. -/
theorem parse_eq_none (s : String) (h1 : dtMatchCore (stripNL s.data) = none)
    (h2 : dateMatchCore (stripNL s.data) = none) :
    parse_utc_timestamp s = .ok none := by
  unfold parse_utc_timestamp reMatchDT reMatchDate
  rw [h1, h2]

/-- Inversion of a successful parse through the datetime pattern. -/
theorem parse_dt_inv (s : String) (tv : TimestampValue) (y mo d h mi se : Nat)
    (digs : List Char)
    (hm : dtMatchCore s.data = some (y, mo, d, h, mi, se, digs))
    (hp : parse_utc_timestamp s = .ok (some tv)) :
    tv = ⟨⟨y, mo, d, h, mi, se, natOfDigits (padFraction digs)⟩,
      Shape.dateTime, digs.length⟩ ∧
    validYMD y mo d ∧ h < 24 ∧ mi < 60 ∧ se < 60 := by
  rw [parse_eq_dt s y mo d h mi se digs hm] at hp
  unfold fromIsoComponents at hp
  split at hp
  · rename_i t heq
    split at heq
    · rename_i hcond
      have ht : DateTime.mk y mo d h mi se (natOfDigits (padFraction digs)) = t := by
        injection heq
      simp only [Except.ok.injEq, Option.some.injEq] at hp
      rw [← ht] at hp
      exact ⟨hp.symm, hcond.1, hcond.2.1, hcond.2.2.1, hcond.2.2.2⟩
    · cases heq
  · cases hp

/-- Inversion of a successful parse through the date-only pattern. -/
theorem parse_date_inv (s : String) (tv : TimestampValue) (y mo d : Nat)
    (hm : dateMatchCore s.data = some (y, mo, d))
    (hp : parse_utc_timestamp s = .ok (some tv)) :
    tv = ⟨⟨y, mo, d, 0, 0, 0, 0⟩, Shape.dateOnly, 0⟩ ∧ validYMD y mo d := by
  rw [parse_eq_date s y mo d hm] at hp
  unfold fromIsoComponents at hp
  split at hp
  · rename_i t heq
    split at heq
    · rename_i hcond
      have ht : DateTime.mk y mo d 0 0 0 0 = t := by
        injection heq
      simp only [Except.ok.injEq, Option.some.injEq] at hp
      rw [← ht] at hp
      exact ⟨hp.symm, hcond.1⟩
    · cases heq
  · cases hp

theorem string_ext (a b : String) (h : a.data = b.data) : a = b := by
  cases a
  cases b
  simp_all

theorem decDigitsAux_zero : ∀ fuel : Nat, decDigitsAux fuel 0 = [] := by
  intro fuel
  cases fuel with
  | zero => rfl
  | succ m =>
    unfold decDigitsAux
    rw [if_pos rfl]

theorem decDigitsAux_eq_padDigits : ∀ (k fuel n : Nat), n < 10 ^ k → k ≤ fuel →
    (k = 0 ∨ 10 ^ (k - 1) ≤ n) → decDigitsAux fuel n = padDigits k n := by
  intro k
  induction k with
  | zero =>
    intro fuel n hlt _ _
    have hn : n = 0 := by simpa using hlt
    rw [hn, decDigitsAux_zero]
    rfl
  | succ m ih =>
    intro fuel n hlt hfuel hlow
    have hge : 10 ^ m ≤ n := by
      rcases hlow with h0 | h1
      · cases h0
      · simpa using h1
    have hn : n ≠ 0 := by
      have : 1 ≤ 10 ^ m := Nat.one_le_pow m 10 (by omega)
      omega
    obtain ⟨f, rfl⟩ : ∃ f, fuel = f + 1 := ⟨fuel - 1, by omega⟩
    unfold decDigitsAux
    rw [if_neg hn]
    show decDigitsAux f (n / 10) ++ [digitChar (n % 10)] =
      padDigits m (n / 10) ++ [digitChar (n % 10)]
    congr 1
    apply ih f (n / 10)
    · have : n < 10 ^ m * 10 := by
        rw [← pow_succ]
        exact hlt
      omega
    · omega
    · cases m with
      | zero => exact Or.inl rfl
      | succ m2 =>
        refine Or.inr ?_
        have h10 : (10 : Nat) ^ (m2 + 1) = 10 ^ m2 * 10 := pow_succ 10 m2
        have : 10 ^ m2 * 10 ≤ n := by rw [← h10]; exact hge
        have := Nat.le_div_iff_mul_le (k := 10) (by omega) |>.mpr this
        simpa using this

theorem decDigits_eq_padDigits_four (n : Nat) (h1 : 1000 ≤ n) (h2 : n < 10000) :
    decDigits n = padDigits 4 n := by
  have hn : n ≠ 0 := by omega
  unfold decDigits
  rw [if_neg hn]
  apply decDigitsAux_eq_padDigits 4 n n
  · norm_num
    omega
  · omega
  · refine Or.inr ?_
    norm_num
    omega

/-- C3 (amended): for every text string that matches one of the two
supported shapes (date-only YYYY-MM-DD, or YYYY-MM-DDTHH:MM:SS with an
optional one to six digit fraction and trailing Z) and has a parse
result, rendering the parse result with its recorded shape and fraction
length reproduces the text byte for byte whenever the shape is date-only
(date().isoformat() zero pads every year) or the parsed year is at least
1000; a datetime text with a smaller year renders through the unpadded
strftime %Y and loses its leading zeros. -/
theorem c3_render_parse_exact (s : String) (tv : TimestampValue)
    (hshape : (dtMatchCore s.data).isSome ∨ (dateMatchCore s.data).isSome)
    (hp : parse_utc_timestamp s = .ok (some tv))
    (hy : tv.shape = Shape.dateTime → 1000 ≤ tv.dt.year) :
    format_utc_timestamp tv.dt tv.shape tv.fracLen = s := by
  rcases hshape with hdt | hdate
  · rw [Option.isSome_iff_exists] at hdt
    obtain ⟨⟨y, mo, d, h, mi, se, digs⟩, hm⟩ := hdt
    obtain ⟨htv, hcond⟩ := parse_dt_inv s tv y mo d h mi se digs hm hp
    subst htv
    have hsd := dtMatchCore_eq_some s.data y mo d h mi se digs hm
    have h6 := hsd.2.2.2.2.2.2.1
    have hall := hsd.2.2.2.2.2.2.2.1
    have hs := hsd.2.2.2.2.2.2.2.2
    have hyd : decDigits y = padDigits 4 y :=
      decDigits_eq_padDigits_four y (hy rfl) hsd.1
    have hp6 : padDigits 6 (natOfDigits (padFraction digs)) = padFraction digs := by
      have hq := padDigits_natOfDigits (padFraction digs) (padFraction_all digs h6 hall)
      rw [padFraction_length digs h6] at hq
      exact hq
    have htake : (padFraction digs).take digs.length = digs := by
      rw [padFraction_eq digs h6]
      exact List.take_left digs _
    apply string_ext
    rw [hs]
    by_cases h0 : digs.length = 0
    · have hdnil : digs = [] := List.eq_nil_of_length_eq_zero h0
      subst hdnil
      simp only [format_utc_timestamp, List.length_nil, gt_iff_lt, lt_self_iff_false,
        if_false, if_pos rfl]
      simp [hyd, List.append_assoc]
    · simp only [format_utc_timestamp, gt_iff_lt]
      rw [if_pos (by omega)]
      rw [if_neg h0]
      show decDigits y ++ ['-'] ++ padDigits 2 mo ++ ['-'] ++ padDigits 2 d ++ ['T'] ++
        padDigits 2 h ++ [':'] ++ padDigits 2 mi ++ [':'] ++ padDigits 2 se ++ ['.'] ++
        (padDigits 6 (natOfDigits (padFraction digs))).take digs.length ++ ['Z'] = _
      rw [hyd, hp6, htake]
      simp [List.append_assoc]
  · rw [Option.isSome_iff_exists] at hdate
    obtain ⟨⟨y, mo, d⟩, hm⟩ := hdate
    obtain ⟨htv, hvalid⟩ := parse_date_inv s tv y mo d hm hp
    subst htv
    have hs := (dateMatchCore_eq_some s.data y mo d hm).2.2.2
    apply string_ext
    rw [hs]
    rfl

/-! ### Render-then-parse lemmas -/

theorem format_dateOnly_data (t : DateTime) (fl : Nat) :
    (format_utc_timestamp t Shape.dateOnly fl).data =
    padDigits 4 t.year ++ ['-'] ++ padDigits 2 t.month ++ ['-'] ++ padDigits 2 t.day := rfl

theorem format_dateTime_zero_data (t : DateTime) :
    (format_utc_timestamp t Shape.dateTime 0).data =
    decDigits t.year ++ ['-'] ++ padDigits 2 t.month ++ ['-'] ++ padDigits 2 t.day ++
    ['T'] ++ padDigits 2 t.hour ++ [':'] ++ padDigits 2 t.minute ++ [':'] ++
    padDigits 2 t.second ++ ['Z'] := rfl

theorem format_dateTime_pos_data (t : DateTime) (fl : Nat) (h : 0 < fl) :
    (format_utc_timestamp t Shape.dateTime fl).data =
    decDigits t.year ++ ['-'] ++ padDigits 2 t.month ++ ['-'] ++ padDigits 2 t.day ++
    ['T'] ++ padDigits 2 t.hour ++ [':'] ++ padDigits 2 t.minute ++ [':'] ++
    padDigits 2 t.second ++ (['.'] ++ (padDigits 6 t.microsecond).take fl ++ ['Z']) := by
  unfold format_utc_timestamp
  rw [if_pos h]
  simp [List.append_assoc]

/-- C4 (amended): rendering a valid datetime with a shape and a fraction
length of at most six (zero for DATE_ONLY, as parsing always records),
and with a year of at least 1000 when the shape is DATETIME (strftime %Y
leaves smaller years unpadded, which the four-digit pattern then cannot
match), yields a text that parses back with the identical shape and
fraction length, and with the instant truncated to the rendered
precision: midnight of the date for DATE_ONLY, microseconds cut to
fracLen digits for DATETIME.  The instant is identical exactly when the
truncated components are zero. -/
theorem c4_render_reparse_truncates (t : DateTime) (shape : Shape) (fracLen : Nat)
    (hv : validDT t) (h6 : fracLen ≤ 6) (hdo : shape = Shape.dateOnly → fracLen = 0)
    (hy : shape = Shape.dateTime → 1000 ≤ t.year) :
    parse_utc_timestamp (format_utc_timestamp t shape fracLen) =
      .ok (some ⟨truncatedTo t shape fracLen, shape, fracLen⟩) := by
  obtain ⟨⟨hy1, hy2, hm1, hm2, hd1, hd2⟩, hh, hmi, hs, hus⟩ := hv
  have hd31 := daysInMonth_le (isLeap t.year) t.month
  cases shape with
  | dateOnly =>
    have hf0 : fracLen = 0 := hdo rfl
    subst hf0
    have hdmatch : dateMatchCore (format_utc_timestamp t Shape.dateOnly 0).data =
        some (t.year, t.month, t.day) := by
      rw [format_dateOnly_data]
      exact dateMatchCore_build t.year t.month t.day (by omega) (by omega) (by omega)
    rw [parse_eq_date _ t.year t.month t.day hdmatch]
    unfold fromIsoComponents
    rw [if_pos ⟨⟨hy1, hy2, hm1, hm2, hd1, hd2⟩, by omega, by omega, by omega⟩]
    rfl
  | dateTime =>
    have hyd : decDigits t.year = padDigits 4 t.year :=
      decDigits_eq_padDigits_four t.year (hy rfl) (by omega)
    by_cases h0 : fracLen = 0
    · subst h0
      have hmatch : dtMatchCore (format_utc_timestamp t Shape.dateTime 0).data =
          some (t.year, t.month, t.day, t.hour, t.minute, t.second, []) := by
        rw [format_dateTime_zero_data, hyd]
        rw [dtMatchCore_build t.year t.month t.day t.hour t.minute t.second ['Z']
          (by omega) (by omega) (by omega) (by omega) (by omega) (by omega)]
        rw [fracOf_z]
        rfl
      rw [parse_eq_dt _ t.year t.month t.day t.hour t.minute t.second [] hmatch]
      unfold fromIsoComponents
      rw [if_pos ⟨⟨hy1, hy2, hm1, hm2, hd1, hd2⟩, hh, hmi, hs⟩]
      have hz : natOfDigits (padFraction []) = 0 := by decide
      have htr : t.microsecond / 10 ^ (6 - 0) * 10 ^ (6 - 0) = 0 := by
        have hp : (10 : Nat) ^ (6 - 0) = 1000000 := by norm_num
        rw [hp]
        omega
      simp only [hz, truncatedTo, htr, List.length_nil]
    · have hL : 1 ≤ fracLen := by omega
      have hsplit : padDigits 6 t.microsecond =
          padDigits fracLen (t.microsecond / 10 ^ (6 - fracLen)) ++
          padDigits (6 - fracLen) (t.microsecond % 10 ^ (6 - fracLen)) := by
        have hq := padDigits_split fracLen (6 - fracLen) t.microsecond
        rw [show fracLen + (6 - fracLen) = 6 by omega] at hq
        exact hq
      have htake : (padDigits 6 t.microsecond).take fracLen =
          padDigits fracLen (t.microsecond / 10 ^ (6 - fracLen)) := by
        rw [hsplit]
        exact List.take_left' (padDigits_length fracLen _)
      set x := t.microsecond / 10 ^ (6 - fracLen) with hxdef
      have hxlt : x < 10 ^ fracLen := by
        have hpow : (10 : Nat) ^ 6 = 10 ^ fracLen * 10 ^ (6 - fracLen) := by
          rw [← pow_add]
          congr 1
          omega
        have hm6 : t.microsecond < 10 ^ 6 := by
          have : (10 : Nat) ^ 6 = 1000000 := by norm_num
          omega
        rw [hpow] at hm6
        exact Nat.div_lt_of_lt_mul (by rw [mul_comm] at hm6; exact hm6)
      have hdigs_len : (padDigits fracLen x).length = fracLen := padDigits_length _ _
      have hdigs_all : (padDigits fracLen x).all isDig = true := padDigits_all_isDig _ _
      have hmatch : dtMatchCore (format_utc_timestamp t Shape.dateTime fracLen).data =
          some (t.year, t.month, t.day, t.hour, t.minute, t.second, padDigits fracLen x) := by
        rw [format_dateTime_pos_data t fracLen (by omega), hyd, htake]
        rw [dtMatchCore_build t.year t.month t.day t.hour t.minute t.second
          (['.'] ++ padDigits fracLen x ++ ['Z'])
          (by omega) (by omega) (by omega) (by omega) (by omega) (by omega)]
        rw [fracOf_dot (padDigits fracLen x) (by omega) (by omega) hdigs_all]
        rfl
      rw [parse_eq_dt _ t.year t.month t.day t.hour t.minute t.second
        (padDigits fracLen x) hmatch]
      unfold fromIsoComponents
      rw [if_pos ⟨⟨hy1, hy2, hm1, hm2, hd1, hd2⟩, hh, hmi, hs⟩]
      have hfrac : natOfDigits (padFraction (padDigits fracLen x)) = x * 10 ^ (6 - fracLen) := by
        rw [padFraction_eq _ (by omega), ← padDigits_zero (6 - (padDigits fracLen x).length),
          hdigs_len, natOfDigits_append_general, natOfDigits_padDigits fracLen x hxlt,
          natOfDigits_padDigits (6 - fracLen) 0 (by positivity), padDigits_length]
        exact Nat.add_zero _
      rw [hfrac]
      simp only [truncatedTo, hdigs_len]

/-- C8 (amended): restricted to ASCII text, where the matchers of this
file coincide with the Python patterns (the class \d also matches
non-ASCII Unicode decimal digits, and fromisoformat rejects such a match
with the same uncaught ValueError), parse recognizes exactly the two
anchored patterns (whose trailing anchor also accepts one final
newline): a matching date-only text with a valid calendar date parses to
midnight UTC with shape DATE_ONLY and fraction length zero; a matching
datetime text with in-range components parses with the fraction digits
right-padded with zeros to six places and the original digit count
recorded; a matching text with out-of-range components raises
ValueError; every other ASCII string is not recognized. -/
theorem c8_recognition (s : String) (_hascii : ∀ c ∈ s.data, c.toNat < 128) :
    (∀ y mo d h mi se digs, reMatchDT s = some (y, mo, d, h, mi, se, digs) →
      ((validYMD y mo d ∧ h < 24 ∧ mi < 60 ∧ se < 60) →
        parse_utc_timestamp s = .ok (some ⟨⟨y, mo, d, h, mi, se,
          natOfDigits (padFraction digs)⟩, Shape.dateTime, digs.length⟩)) ∧
      (¬(validYMD y mo d ∧ h < 24 ∧ mi < 60 ∧ se < 60) →
        parse_utc_timestamp s = .error "ValueError: invalid isoformat components")) ∧
    (reMatchDT s = none → ∀ y mo d, reMatchDate s = some (y, mo, d) →
      (validYMD y mo d →
        parse_utc_timestamp s = .ok (some ⟨⟨y, mo, d, 0, 0, 0, 0⟩, Shape.dateOnly, 0⟩)) ∧
      (¬validYMD y mo d →
        parse_utc_timestamp s = .error "ValueError: invalid isoformat components")) ∧
    (reMatchDT s = none → reMatchDate s = none → parse_utc_timestamp s = .ok none) := by
  refine ⟨?_, ?_, ?_⟩
  · intro y mo d h mi se digs hm
    have hstep : parse_utc_timestamp s =
        (match fromIsoComponents y mo d h mi se (natOfDigits (padFraction digs)) with
         | .ok t => Except.ok (some ⟨t, Shape.dateTime, digs.length⟩)
         | .error e => Except.error e) := by
      unfold parse_utc_timestamp
      rw [hm]
    constructor
    · intro hcond
      rw [hstep]
      unfold fromIsoComponents
      rw [if_pos hcond]
    · intro hcond
      rw [hstep]
      unfold fromIsoComponents
      rw [if_neg hcond]
  · intro hdt y mo d hm
    have hstep : parse_utc_timestamp s =
        (match fromIsoComponents y mo d 0 0 0 0 with
         | .ok t => Except.ok (some ⟨t, Shape.dateOnly, 0⟩)
         | .error e => Except.error e) := by
      unfold parse_utc_timestamp
      rw [hdt, hm]
    constructor
    · intro hcond
      rw [hstep]
      unfold fromIsoComponents
      rw [if_pos ⟨hcond, by omega, by omega, by omega⟩]
    · intro hcond
      rw [hstep]
      unfold fromIsoComponents
      rw [if_neg (fun hc => hcond hc.1)]
  · intro h1 h2
    unfold parse_utc_timestamp
    rw [h1, h2]

/-- C8 counterexample: the text 2023-13-40 matches the date-only shape
(four digits, dash, two digits, dash, two digits) yet parse neither
returns a timestamp value nor reports not-recognized: the fromisoformat
range check raises an uncaught ValueError, aborting the whole run. -/
theorem c8_counterexample :
    dateMatchCore ("2023-13-40").data = some (2023, 13, 40) ∧
    parse_utc_timestamp "2023-13-40" =
      .error "ValueError: invalid isoformat components" := by decide

theorem c8_witness :
    parse_utc_timestamp "2024-02-29" =
      .ok (some ⟨⟨2024, 2, 29, 0, 0, 0, 0⟩, Shape.dateOnly, 0⟩) :=
  ((c8_recognition "2024-02-29" (by decide)).2.1 rfl 2024 2 29 rfl).1 (by decide)

/-- C3 counterexample: the datetime text 0500-01-01T00:00:00Z parses, yet
rendering its parse result goes through the unpadded strftime %Y, so the
year loses its leading zero and the round trip is not byte identical. -/
theorem c3_counterexample :
    parse_utc_timestamp "0500-01-01T00:00:00Z" =
      .ok (some ⟨⟨500, 1, 1, 0, 0, 0, 0⟩, Shape.dateTime, 0⟩) ∧
    format_utc_timestamp ⟨500, 1, 1, 0, 0, 0, 0⟩ Shape.dateTime 0 =
      "500-01-01T00:00:00Z" ∧
    ("500-01-01T00:00:00Z" : String) ≠ "0500-01-01T00:00:00Z" := by
  refine ⟨by decide, ?_, by decide⟩
  rfl

theorem c3_witness :
    format_utc_timestamp ⟨2024, 6, 1, 12, 0, 0, 500000⟩ Shape.dateTime 3 =
      "2024-06-01T12:00:00.500Z" :=
  c3_render_parse_exact "2024-06-01T12:00:00.500Z"
    ⟨⟨2024, 6, 1, 12, 0, 0, 500000⟩, Shape.dateTime, 3⟩ (Or.inl (by decide)) (by decide)
    (by decide)

/-- C4 counterexample: rendering noon of 2023-01-01 with the DATE_ONLY
shape yields 2023-01-01, which parses back to midnight, not to the
identical instant. -/
theorem c4_counterexample :
    parse_utc_timestamp (format_utc_timestamp ⟨2023, 1, 1, 12, 0, 0, 0⟩ Shape.dateOnly 0) =
      .ok (some ⟨⟨2023, 1, 1, 0, 0, 0, 0⟩, Shape.dateOnly, 0⟩) ∧
    toMicros ⟨2023, 1, 1, 0, 0, 0, 0⟩ ≠ toMicros ⟨2023, 1, 1, 12, 0, 0, 0⟩ := by decide

theorem c4_witness :
    parse_utc_timestamp (format_utc_timestamp ⟨2024, 6, 1, 12, 0, 0, 123456⟩ Shape.dateTime 3) =
      .ok (some ⟨⟨2024, 6, 1, 12, 0, 0, 123000⟩, Shape.dateTime, 3⟩) := by
  rw [c4_render_reparse_truncates ⟨2024, 6, 1, 12, 0, 0, 123456⟩ Shape.dateTime 3
    (by decide) (by decide) (by decide) (by decide)]
  rfl

/-! ### Pipeline lemmas and claims C5, C6, C10 -/

/-- C10: calling the apply operation while delta is still unset always
fails with the exact contract-violation error and produces no updated
tree: the check precedes the overwrite loop, so nothing is shifted. -/
theorem c10_apply_before_delta (root : JValue) (found : List Found) :
    apply_shift none root found = .error "Cannot apply shift before computing delta." ∧
    ∀ result : JValue × Nat, apply_shift none root found ≠ .ok result := by
  refine ⟨rfl, ?_⟩
  intro result hcon
  cases hcon

/-- After a successful load, run is decided by the collect and apply
phases. -/
theorem run_of_load (input : JValue) (targetOpt : Option DateTime) (now : DateTime)
    (data : List JValue) (hl : load_fixture input = .ok data) :
    run input targetOpt now =
      (match collect_dates 0 data with
       | .error e => RunOutcome.valueError e
       | .ok [] => RunOutcome.noChanges
       | .ok (f :: fs) =>
         match apply_shift (some (compute_shift (f :: fs) (targetOf targetOpt now)))
             (.arr data) (f :: fs) with
         | .error e => RunOutcome.valueError e
         | .ok (out, count) =>
           .written out (f :: fs) (pyMax f fs)
             (compute_shift (f :: fs) (targetOf targetOpt now)) count) := by
  unfold run
  rw [hl]

/-- C5: when loading succeeds and the scan finds zero timestamps, the run
ends in the dedicated no-changes outcome: not an error, nothing written,
and the report emits the exact no-changes notice, which it emits for no
other outcome. -/
theorem c5_no_match_noop (input : JValue) (targetOpt : Option DateTime) (now : DateTime)
    (data : List JValue)
    (hl : load_fixture input = .ok data)
    (hc : collect_dates 0 data = .ok []) :
    run input targetOpt now = .noChanges ∧
    (∀ out found latest delta count,
      run input targetOpt now ≠ .written out found latest delta count) ∧
    (∀ e, run input targetOpt now ≠ .structuralError e) ∧
    (∀ e, run input targetOpt now ≠ .valueError e) ∧
    reportNotice (run input targetOpt now) =
      some "No matching UTC date strings found. No changes made." := by
  have hrun : run input targetOpt now = .noChanges := by
    rw [run_of_load input targetOpt now data hl, hc]
  rw [hrun]
  refine ⟨rfl, ?_, ?_, ?_, rfl⟩
  · intro out found latest delta count hcon
    cases hcon
  · intro e hcon
    cases hcon
  · intro e hcon
    cases hcon

theorem c5_witness :
    run (.arr [.obj [("fields", .obj [("name", .str "x")])]]) none
      ⟨2024, 6, 1, 0, 0, 0, 0⟩ = .noChanges := by
  exact (c5_no_match_noop (.arr [.obj [("fields", .obj [("name", .str "x")])]]) none
    ⟨2024, 6, 1, 0, 0, 0, 0⟩ [.obj [("fields", .obj [("name", .str "x")])]] rfl rfl).1

/-- checkItems on a cons: accept the head and continue, or raise its
message. -/
theorem checkItems_cons (i : Nat) (a : JValue) (rest : List JValue) :
    checkItems i (a :: rest) =
      if itemOk a then checkItems (i + 1) rest else .error (itemErrMsg i a) := by
  cases a with
  | obj fs =>
    show (match lookupJ fs "fields" with
      | some (.obj _) => checkItems (i + 1) rest
      | _ => Except.error ("Fixture item at index " ++ toString i ++
          " is missing a valid \"fields\" object.")) = _
    cases hlk : lookupJ fs "fields" with
    | none => simp [itemOk, itemErrMsg, hlk]
    | some v => cases v <;> simp [itemOk, itemErrMsg, hlk]
  | str s => rfl
  | num n => rfl
  | bool b => rfl
  | null => rfl
  | arr xs => rfl

/-- The first structurally bad item determines the checkItems error. -/
theorem checkItems_err (items : List JValue) : ∀ (i idx : Nat) (item : JValue),
    items.get? idx = some item →
    (∀ j itj, j < idx → items.get? j = some itj → itemOk itj = true) →
    itemOk item = false →
    checkItems i items = .error (itemErrMsg (i + idx) item) := by
  induction items with
  | nil =>
    intro i idx item hget
    simp at hget
  | cons a rest ih =>
    intro i idx item hget hprev hbad
    cases idx with
    | zero =>
      have ha : a = item := by simpa using hget
      subst ha
      rw [checkItems_cons, if_neg (by rw [hbad]; exact Bool.false_ne_true)]
      rw [Nat.add_zero]
    | succ n =>
      have hok : itemOk a = true := hprev 0 a (by omega) rfl
      rw [checkItems_cons, if_pos hok]
      have hgr : rest.get? n = some item := by simpa using hget
      have hpr : ∀ j itj, j < n → rest.get? j = some itj → itemOk itj = true := by
        intro j itj hj hg
        exact hprev (j + 1) itj (by omega) (by simpa using hg)
      have := ih (i + 1) n item hgr hpr hbad
      rw [this]
      congr 1
      congr 1
      omega

/-- C6: a non-array top level, or a first structurally bad item, aborts
the run with the exact structural TypeError naming the offending index,
before any scanning (the conclusion holds whatever the other items'
fields contain, even strings whose parse would raise), and the outcome
carries no written output. -/
theorem c6_structural_errors (input : JValue) (targetOpt : Option DateTime) (now : DateTime) :
    ((∀ items, input ≠ .arr items) →
      run input targetOpt now =
        .structuralError "Fixture JSON must be an array at the top level.") ∧
    (∀ items idx item, input = .arr items → items.get? idx = some item →
      (∀ j itj, j < idx → items.get? j = some itj → itemOk itj = true) →
      itemOk item = false →
      run input targetOpt now = .structuralError (itemErrMsg idx item)) ∧
    (∀ e out found latest delta count, run input targetOpt now = .structuralError e →
      run input targetOpt now ≠ .written out found latest delta count) := by
  refine ⟨?_, ?_, ?_⟩
  · intro h
    cases input with
    | arr items => exact absurd rfl (h items)
    | str s => rfl
    | num n => rfl
    | bool b => rfl
    | null => rfl
    | obj fs => rfl
  · intro items idx item hin hget hprev hbad
    subst hin
    have hchk := checkItems_err items 0 idx item hget hprev hbad
    rw [Nat.zero_add] at hchk
    have hload : load_fixture (.arr items) = .error (itemErrMsg idx item) := by
      show (match checkItems 0 items with
        | .ok _ => Except.ok items
        | .error e => Except.error e) = _
      rw [hchk]
    unfold run
    rw [hload]
  · intro e out found latest delta count he hcon
    rw [he] at hcon
    cases hcon

theorem c6_witness :
    run (.arr [.obj [("fields", .obj [])], .num 3]) none ⟨2024, 6, 1, 0, 0, 0, 0⟩ =
      .structuralError "Fixture item at index 1 is not an object." := by
  have h := (c6_structural_errors (.arr [.obj [("fields", .obj [])], .num 3]) none
    ⟨2024, 6, 1, 0, 0, 0, 0⟩).2.1 [.obj [("fields", .obj [])], .num 3] 1 (.num 3) rfl rfl
    (by
      intro j itj hj hg
      have hj0 : j = 0 := by omega
      subst hj0
      have : JValue.obj [("fields", JValue.obj [])] = itj := by simpa using hg
      rw [← this]
      rfl)
    rfl
  exact h

/-! ### Maximum selection (C7) -/

theorem pyMax_nil (f : Found) : pyMax f [] = f := rfl

theorem pyMax_cons (f x : Found) (rest : List Found) :
    pyMax f (x :: rest) =
      pyMax (if toMicros f.dt < toMicros x.dt then x else f) rest := rfl

theorem pyMax_mem : ∀ (rest : List Found) (f : Found), pyMax f rest ∈ f :: rest := by
  intro rest
  induction rest with
  | nil => intro f; rw [pyMax_nil]; exact List.mem_cons_self f []
  | cons x rs ih =>
    intro f
    rw [pyMax_cons]
    by_cases h : toMicros f.dt < toMicros x.dt
    · rw [if_pos h]
      have := ih x
      rcases List.mem_cons.mp this with h1 | h1
      · rw [h1]; exact List.mem_cons.mpr (Or.inr (List.mem_cons_self x rs))
      · exact List.mem_cons.mpr (Or.inr (List.mem_cons.mpr (Or.inr h1)))
    · rw [if_neg h]
      have := ih f
      rcases List.mem_cons.mp this with h1 | h1
      · rw [h1]; exact List.mem_cons_self f (x :: rs)
      · exact List.mem_cons.mpr (Or.inr (List.mem_cons.mpr (Or.inr h1)))

theorem pyMax_ge : ∀ (rest : List Found) (f g : Found), g ∈ f :: rest →
    toMicros g.dt ≤ toMicros (pyMax f rest).dt := by
  intro rest
  induction rest with
  | nil =>
    intro f g hg
    rw [pyMax_nil]
    rcases List.mem_cons.mp hg with h | h
    · rw [h]
    · simp at h
  | cons x rs ih =>
    intro f g hg
    rw [pyMax_cons]
    by_cases h : toMicros f.dt < toMicros x.dt
    · rw [if_pos h]
      rcases List.mem_cons.mp hg with h1 | h1
      · have hx := ih x x (List.mem_cons_self x rs)
        rw [h1]; omega
      · rcases List.mem_cons.mp h1 with h2 | h2
        · rw [h2]; exact ih x x (List.mem_cons_self x rs)
        · exact ih x g (List.mem_cons.mpr (Or.inr h2))
    · rw [if_neg h]
      rcases List.mem_cons.mp hg with h1 | h1
      · rw [h1]; exact ih f f (List.mem_cons_self f rs)
      · rcases List.mem_cons.mp h1 with h2 | h2
        · have hf := ih f f (List.mem_cons_self f rs)
          rw [h2]; omega
        · exact ih f g (List.mem_cons.mpr (Or.inr h2))

/-- When the head already carries the maximum key, the builtin max never
replaces it: ties keep the earliest element. -/
theorem pyMax_head_of_key_eq : ∀ (rest : List Found) (f : Found),
    toMicros (pyMax f rest).dt = toMicros f.dt → pyMax f rest = f := by
  intro rest
  induction rest with
  | nil => intro f _; rfl
  | cons x rs ih =>
    intro f hk
    rw [pyMax_cons] at hk ⊢
    by_cases h : toMicros f.dt < toMicros x.dt
    · rw [if_pos h] at hk ⊢
      exfalso
      have := pyMax_ge rs x x (List.mem_cons_self x rs)
      omega
    · rw [if_neg h] at hk ⊢
      exact ih f hk

/-- The selected maximum is the first element attaining the maximum
instant, in traversal order. -/
theorem pyMax_first : ∀ (rest : List Found) (f : Found),
    (f :: rest).find? (fun g => toMicros g.dt == toMicros (pyMax f rest).dt) =
      some (pyMax f rest) := by
  intro rest
  induction rest with
  | nil =>
    intro f
    rw [pyMax_nil, List.find?_cons]
    simp
  | cons x rs ih =>
    intro f
    rw [pyMax_cons]
    by_cases h : toMicros f.dt < toMicros x.dt
    · rw [if_pos h]
      rw [List.find?_cons]
      have hne : (toMicros f.dt == toMicros (pyMax x rs).dt) = false := by
        have := pyMax_ge rs x x (List.mem_cons_self x rs)
        simp only [beq_eq_false_iff_ne, ne_eq]
        omega
      rw [hne]
      exact ih x
    · rw [if_neg h]
      have hle : toMicros x.dt ≤ toMicros f.dt := by omega
      rw [List.find?_cons]
      by_cases hf : toMicros f.dt = toMicros (pyMax f rs).dt
      · have : (toMicros f.dt == toMicros (pyMax f rs).dt) = true := by
          simp [hf]
        rw [this]
        have := pyMax_head_of_key_eq rs f hf.symm
        rw [this]
      · have hfb : (toMicros f.dt == toMicros (pyMax f rs).dt) = false := by
          simp [hf]
        rw [hfb]
        rw [List.find?_cons]
        have hxb : (toMicros x.dt == toMicros (pyMax f rs).dt) = false := by
          have hfm := pyMax_ge rs f f (List.mem_cons_self f rs)
          simp only [beq_eq_false_iff_ne, ne_eq]
          omega
        rw [hxb]
        have := ih f
        rw [List.find?_cons] at this
        rw [hfb] at this
        exact this

/-- C7: the planner selects the entry with the greatest parsed instant,
among ties the first in traversal order, and the computed delta depends
only on that maximum instant, not on which tied entry was selected. -/
theorem c7_max_selection (f : Found) (rest : List Found) (target : DateTime) :
    pyMax f rest ∈ f :: rest ∧
    (∀ g ∈ f :: rest, toMicros g.dt ≤ toMicros (pyMax f rest).dt) ∧
    (f :: rest).find? (fun g => toMicros g.dt == toMicros (pyMax f rest).dt) =
      some (pyMax f rest) ∧
    compute_shift (f :: rest) target =
      (toMicros target : Int) - (toMicros (pyMax f rest).dt : Int) ∧
    (∀ f2 rest2, toMicros (pyMax f2 rest2).dt = toMicros (pyMax f rest).dt →
      compute_shift (f2 :: rest2) target = compute_shift (f :: rest) target) := by
  refine ⟨pyMax_mem rest f, fun g hg => pyMax_ge rest f g hg, pyMax_first rest f, rfl, ?_⟩
  intro f2 rest2 heq
  show (toMicros target : Int) - (toMicros (pyMax f2 rest2).dt : Int) = _
  rw [heq]
  rfl

theorem c7_witness :
    pyMax ⟨[], ⟨2023, 1, 1, 0, 0, 0, 0⟩, Shape.dateOnly, 0⟩
        [⟨[], ⟨2024, 1, 1, 0, 0, 0, 0⟩, Shape.dateOnly, 0⟩] ∈
      ([⟨[], ⟨2023, 1, 1, 0, 0, 0, 0⟩, Shape.dateOnly, 0⟩,
        ⟨[], ⟨2024, 1, 1, 0, 0, 0, 0⟩, Shape.dateOnly, 0⟩] : List Found) ∧
    toMicros (pyMax ⟨[], ⟨2023, 1, 1, 0, 0, 0, 0⟩, Shape.dateOnly, 0⟩
        [⟨[], ⟨2024, 1, 1, 0, 0, 0, 0⟩, Shape.dateOnly, 0⟩]).dt =
      toMicros (⟨2024, 1, 1, 0, 0, 0, 0⟩ : DateTime) :=
  ⟨(c7_max_selection ⟨[], ⟨2023, 1, 1, 0, 0, 0, 0⟩, Shape.dateOnly, 0⟩
      [⟨[], ⟨2024, 1, 1, 0, 0, 0, 0⟩, Shape.dateOnly, 0⟩] ⟨2024, 1, 1, 0, 0, 0, 0⟩).1,
    by decide⟩

/-! ### Run inversion and claims C1, C2 -/

theorem run_written_inv (input : JValue) (targetOpt : Option DateTime) (now : DateTime)
    (out : JValue) (found : List Found) (latest : Found) (delta : Int) (count : Nat)
    (h : run input targetOpt now = .written out found latest delta count) :
    ∃ data f fs, load_fixture input = .ok data ∧ collect_dates 0 data = .ok (f :: fs) ∧
      found = f :: fs ∧ latest = pyMax f fs ∧
      delta = compute_shift (f :: fs) (targetOf targetOpt now) ∧
      applyLoop delta (.arr data) (f :: fs) = .ok out ∧ count = found.length := by
  cases hload : load_fixture input with
  | error e =>
    have hx : run input targetOpt now = .structuralError e := by
      unfold run
      rw [hload]
    rw [hx] at h
    cases h
  | ok data =>
    have hrl := run_of_load input targetOpt now data hload
    cases hcol : collect_dates 0 data with
    | error e =>
      rw [hcol] at hrl
      rw [hrl] at h
      cases h
    | ok lst =>
      cases lst with
      | nil =>
        rw [hcol] at hrl
        rw [hrl] at h
        cases h
      | cons f fs =>
        rw [hcol] at hrl
        have hrl2 : run input targetOpt now =
            (match apply_shift (some (compute_shift (f :: fs) (targetOf targetOpt now)))
                (.arr data) (f :: fs) with
             | .error e => RunOutcome.valueError e
             | .ok (o, c) =>
               RunOutcome.written o (f :: fs) (pyMax f fs)
                 (compute_shift (f :: fs) (targetOf targetOpt now)) c) := hrl
        cases hap : applyLoop (compute_shift (f :: fs) (targetOf targetOpt now))
            (.arr data) (f :: fs) with
        | error e =>
          have hax : apply_shift (some (compute_shift (f :: fs) (targetOf targetOpt now)))
              (.arr data) (f :: fs) = .error e := by
            show (match applyLoop (compute_shift (f :: fs) (targetOf targetOpt now))
                (.arr data) (f :: fs) with
              | .error e => Except.error e
              | .ok o => Except.ok (o, (f :: fs).length)) = _
            rw [hap]
          rw [hax] at hrl2
          rw [hrl2] at h
          cases h
        | ok outv =>
          have hax : apply_shift (some (compute_shift (f :: fs) (targetOf targetOpt now)))
              (.arr data) (f :: fs) = .ok (outv, (f :: fs).length) := by
            show (match applyLoop (compute_shift (f :: fs) (targetOf targetOpt now))
                (.arr data) (f :: fs) with
              | .error e => Except.error e
              | .ok o => Except.ok (o, (f :: fs).length)) = _
            rw [hap]
          rw [hax] at hrl2
          rw [hrl2] at h
          injection h with h1 h2 h3 h4 h5
          refine ⟨data, f, fs, rfl, hcol, h2.symm, h3.symm, h4.symm, ?_, ?_⟩
          · rw [← h4, ← h1]
            exact hap
          · rw [← h5, ← h2]

/-- A successful shifted addition lands exactly delta microseconds away,
on a valid datetime. -/
theorem addDelta_ok_micros (t : DateTime) (d : Int) (g : DateTime)
    (h : addDelta t d = .ok g) :
    (toMicros g : Int) = (toMicros t : Int) + d ∧ validDT g := by
  unfold addDelta at h
  split at h
  · rename_i hc
    injection h with h1
    have hnn : (0 : Int) ≤ (toMicros t : Int) + d := hc.1
    have hnt : ((((toMicros t : Int) + d).toNat : Nat) : Int) = (toMicros t : Int) + d :=
      Int.toNat_of_nonneg hnn
    have hlt : ((toMicros t : Int) + d).toNat < maxMicros := by
      have hc2 := hc.2
      omega
    have hrt := toMicros_fromMicros ((toMicros t : Int) + d).toNat hlt
    rw [← h1]
    constructor
    · rw [hrt.1]
      exact hnt
    · exact hrt.2
  · cases h

/-- Every entry of a completed apply loop was shifted successfully. -/
theorem applyLoop_ok_each : ∀ (found : List Found) (d : Int) (root out : JValue),
    applyLoop d root found = .ok out → ∀ f ∈ found, ∃ g, addDelta f.dt d = .ok g := by
  intro found
  induction found with
  | nil =>
    intro d root out h f hf
    simp at hf
  | cons x rest ih =>
    intro d root out h f hf
    unfold applyLoop at h
    split at h
    · cases h
    · rename_i shifted hsh
      rcases List.mem_cons.mp hf with h1 | h1
      · exact ⟨shifted, by rw [h1]; exact hsh⟩
      · exact ih d _ out h f h1

/-- C1: in every completed run, the computed delta is the target minus
the maximum discovered instant, every discovered instant is at most the
maximum, and shifting the maximum by the delta succeeds and lands exactly
on the target: exactly the explicit --latest-time instant when supplied,
and exactly the planning-time clock otherwise. -/
theorem c1_target_anchoring (input : JValue) (targetOpt : Option DateTime) (now : DateTime)
    (out : JValue) (found : List Found) (latest : Found) (delta : Int) (count : Nat)
    (hv : validDT (targetOf targetOpt now))
    (hrun : run input targetOpt now = .written out found latest delta count) :
    delta = (toMicros (targetOf targetOpt now) : Int) - (toMicros latest.dt : Int) ∧
    (∀ g ∈ found, toMicros g.dt ≤ toMicros latest.dt) ∧
    addDelta latest.dt delta = .ok (targetOf targetOpt now) := by
  obtain ⟨data, f, fs, hload, hcol, hfound, hlatest, hdelta, happ, hcount⟩ :=
    run_written_inv input targetOpt now out found latest delta count hrun
  subst hfound hlatest hdelta
  refine ⟨rfl, fun g hg => pyMax_ge fs f g hg, ?_⟩
  have hT : toMicros (targetOf targetOpt now) < maxMicros := toMicros_lt _ hv
  have harith : (toMicros (pyMax f fs).dt : Int) +
      compute_shift (f :: fs) (targetOf targetOpt now) =
      (toMicros (targetOf targetOpt now) : Int) := by
    show (toMicros (pyMax f fs).dt : Int) +
      ((toMicros (targetOf targetOpt now) : Int) - (toMicros (pyMax f fs).dt : Int)) = _
    ring
  unfold addDelta
  rw [harith]
  rw [if_pos ⟨by exact_mod_cast Nat.zero_le _, by exact_mod_cast hT⟩]
  have htn : ((toMicros (targetOf targetOpt now) : Int)).toNat =
      toMicros (targetOf targetOpt now) := by omega
  rw [htn, fromMicros_toMicros _ hv]

/-- C2: any two timestamps discovered in one completed run are shifted by
the identical single delta, so their shifted instants preserve both the
gap and the ordering of the original instants. -/
theorem c2_gap_preservation (input : JValue) (targetOpt : Option DateTime) (now : DateTime)
    (out : JValue) (found : List Found) (latest : Found) (delta : Int) (count : Nat)
    (f1 f2 : Found) (g1 g2 : DateTime)
    (_hrun : run input targetOpt now = .written out found latest delta count)
    (_h1 : f1 ∈ found) (_h2 : f2 ∈ found)
    (hle : toMicros f1.dt ≤ toMicros f2.dt)
    (ha1 : addDelta f1.dt delta = .ok g1) (ha2 : addDelta f2.dt delta = .ok g2) :
    (toMicros g2 : Int) - (toMicros g1 : Int) =
      (toMicros f2.dt : Int) - (toMicros f1.dt : Int) ∧
    toMicros g1 ≤ toMicros g2 := by
  have hm1 := (addDelta_ok_micros f1.dt delta g1 ha1).1
  have hm2 := (addDelta_ok_micros f2.dt delta g2 ha2).1
  constructor
  · omega
  · omega

set_option maxRecDepth 100000 in
theorem c1_witness :
    addDelta ⟨9998, 1, 3, 12, 0, 0, 500000⟩ 12830399500000 =
      .ok ⟨9998, 6, 1, 0, 0, 0, 0⟩ := by
  have h := c1_target_anchoring
    (.arr [.obj [("fields", .obj [("a", .str "9998-01-01"),
      ("b", .str "9998-01-03T12:00:00.500Z")])]])
    (some ⟨9998, 6, 1, 0, 0, 0, 0⟩) ⟨9998, 1, 1, 0, 0, 0, 0⟩
    (.arr [.obj [("fields", .obj [("a", .str "9998-05-29"),
      ("b", .str "9998-06-01T00:00:00.000Z")])]])
    [⟨[Step.idx 0, Step.key "fields", Step.key "a"],
      ⟨9998, 1, 1, 0, 0, 0, 0⟩, Shape.dateOnly, 0⟩,
     ⟨[Step.idx 0, Step.key "fields", Step.key "b"],
      ⟨9998, 1, 3, 12, 0, 0, 500000⟩, Shape.dateTime, 3⟩]
    ⟨[Step.idx 0, Step.key "fields", Step.key "b"],
      ⟨9998, 1, 3, 12, 0, 0, 500000⟩, Shape.dateTime, 3⟩
    12830399500000 2 (by decide) rfl
  exact h.2.2

set_option maxRecDepth 100000 in
theorem c2_witness :
    (toMicros (⟨9998, 6, 1, 0, 0, 0, 0⟩ : DateTime) : Int) -
      (toMicros (⟨9998, 5, 29, 11, 59, 59, 500000⟩ : DateTime) : Int) =
    (toMicros (⟨9998, 1, 3, 12, 0, 0, 500000⟩ : DateTime) : Int) -
      (toMicros (⟨9998, 1, 1, 0, 0, 0, 0⟩ : DateTime) : Int) ∧
    toMicros (⟨9998, 5, 29, 11, 59, 59, 500000⟩ : DateTime) ≤
      toMicros (⟨9998, 6, 1, 0, 0, 0, 0⟩ : DateTime) := by
  have h := c2_gap_preservation
    (.arr [.obj [("fields", .obj [("a", .str "9998-01-01"),
      ("b", .str "9998-01-03T12:00:00.500Z")])]])
    (some ⟨9998, 6, 1, 0, 0, 0, 0⟩) ⟨9998, 1, 1, 0, 0, 0, 0⟩
    (.arr [.obj [("fields", .obj [("a", .str "9998-05-29"),
      ("b", .str "9998-06-01T00:00:00.000Z")])]])
    [⟨[Step.idx 0, Step.key "fields", Step.key "a"],
      ⟨9998, 1, 1, 0, 0, 0, 0⟩, Shape.dateOnly, 0⟩,
     ⟨[Step.idx 0, Step.key "fields", Step.key "b"],
      ⟨9998, 1, 3, 12, 0, 0, 500000⟩, Shape.dateTime, 3⟩]
    ⟨[Step.idx 0, Step.key "fields", Step.key "b"],
      ⟨9998, 1, 3, 12, 0, 0, 500000⟩, Shape.dateTime, 3⟩
    12830399500000 2
    ⟨[Step.idx 0, Step.key "fields", Step.key "a"],
      ⟨9998, 1, 1, 0, 0, 0, 0⟩, Shape.dateOnly, 0⟩
    ⟨[Step.idx 0, Step.key "fields", Step.key "b"],
      ⟨9998, 1, 3, 12, 0, 0, 500000⟩, Shape.dateTime, 3⟩
    ⟨9998, 5, 29, 11, 59, 59, 500000⟩ ⟨9998, 6, 1, 0, 0, 0, 0⟩
    rfl (by decide) (by decide) (by decide) rfl rfl
  exact h

/-! ### Frame reasoning for the apply phase (C9) -/

theorem lookupJ_setKey_found (fs : List (String × JValue)) (k : String) (x u : JValue)
    (h : lookupJ fs k = some u) : lookupJ (setKey fs k x) k = some x := by
  induction fs with
  | nil => simp [lookupJ] at h
  | cons kv rest ih =>
    obtain ⟨k', v⟩ := kv
    by_cases hk : k' = k
    · unfold setKey
      rw [if_pos hk]
      unfold lookupJ
      rw [if_pos hk]
    · unfold setKey
      rw [if_neg hk]
      unfold lookupJ at h ⊢
      rw [if_neg hk] at h ⊢
      exact ih h

theorem lookupJ_setKey_ne (fs : List (String × JValue)) (k k' : String) (x : JValue)
    (h : k ≠ k') : lookupJ (setKey fs k x) k' = lookupJ fs k' := by
  induction fs with
  | nil => rfl
  | cons kv rest ih =>
    obtain ⟨k0, v⟩ := kv
    by_cases hk : k0 = k
    · unfold setKey
      rw [if_pos hk]
      unfold lookupJ
      rw [if_neg (by rw [hk]; exact h), if_neg (by rw [hk]; exact h)]
    · unfold setKey
      rw [if_neg hk]
      unfold lookupJ
      by_cases h0 : k0 = k'
      · rw [if_pos h0, if_pos h0]
      · rw [if_neg h0, if_neg h0]
        exact ih

theorem getAtPath_append : ∀ (p q : List Step) (v : JValue),
    getAtPath (p ++ q) v = (getAtPath p v).bind (fun u => getAtPath q u) := by
  intro p
  induction p with
  | nil => intro q v; rfl
  | cons s ps ih =>
    intro q v
    cases s with
    | key k =>
      cases v with
      | obj fs =>
        show (match lookupJ fs k with
          | some u => getAtPath (ps ++ q) u
          | none => none) = _
        cases hlk : lookupJ fs k with
        | some u =>
          show getAtPath (ps ++ q) u = ((match lookupJ fs k with
            | some u => getAtPath ps u
            | none => none).bind fun u => getAtPath q u)
          rw [hlk, ih]
        | none =>
          show (none : Option JValue) = ((match lookupJ fs k with
            | some u => getAtPath ps u
            | none => none).bind fun u => getAtPath q u)
          rw [hlk]
          rfl
      | str s => rfl
      | num n => rfl
      | bool b => rfl
      | null => rfl
      | arr xs => rfl
    | idx i =>
      cases v with
      | arr xs =>
        show (match xs.get? i with
          | some u => getAtPath (ps ++ q) u
          | none => none) = _
        cases hlk : xs.get? i with
        | some u =>
          show getAtPath (ps ++ q) u = ((match xs.get? i with
            | some u => getAtPath ps u
            | none => none).bind fun u => getAtPath q u)
          rw [hlk, ih]
        | none =>
          show (none : Option JValue) = ((match xs.get? i with
            | some u => getAtPath ps u
            | none => none).bind fun u => getAtPath q u)
          rw [hlk]
          rfl
      | str s => rfl
      | num n => rfl
      | bool b => rfl
      | null => rfl
      | obj fs => rfl

theorem getAtPath_leaf_nil (u : JValue) (hleaf : isLeafB u = true) :
    ∀ q : List Step, q ≠ [] → getAtPath q u = none := by
  intro q hq
  cases q with
  | nil => exact absurd rfl hq
  | cons s rest =>
    cases u with
    | obj fs => simp [isLeafB] at hleaf
    | arr xs => simp [isLeafB] at hleaf
    | str s0 => cases s <;> rfl
    | num n => cases s <;> rfl
    | bool b => cases s <;> rfl
    | null => cases s <;> rfl

/-- Two distinct leaf-valued paths are incomparable. -/
theorem leaf_paths_incomparable (v : JValue) (p p' : List Step) (u u' : JValue)
    (hget : getAtPath p v = some u) (hleaf : isLeafB u = true)
    (hget' : getAtPath p' v = some u') (hleaf' : isLeafB u' = true)
    (hne : p ≠ p') : ¬ p <+: p' ∧ ¬ p' <+: p := by
  constructor
  · intro hpre
    obtain ⟨q, hq⟩ := hpre
    have hqne : q ≠ [] := by
      intro h0
      rw [h0, List.append_nil] at hq
      exact hne hq
    rw [← hq, getAtPath_append, hget] at hget'
    simp only [Option.some_bind] at hget'
    rw [getAtPath_leaf_nil u hleaf q hqne] at hget'
    cases hget'
  · intro hpre
    obtain ⟨q, hq⟩ := hpre
    have hqne : q ≠ [] := by
      intro h0
      rw [h0, List.append_nil] at hq
      exact hne hq.symm
    rw [← hq, getAtPath_append, hget'] at hget
    simp only [Option.some_bind] at hget
    rw [getAtPath_leaf_nil u' hleaf' q hqne] at hget
    cases hget

theorem setAtPath_idx_obj (i : Nat) (rest : List Step) (snew : String)
    (fs : List (String × JValue)) :
    setAtPath (Step.idx i :: rest) snew (.obj fs) = .obj fs := by
  cases rest <;> rfl

theorem setAtPath_key_arr (k : String) (rest : List Step) (snew : String)
    (xs : List JValue) :
    setAtPath (Step.key k :: rest) snew (.arr xs) = .arr xs := by
  cases rest <;> rfl

theorem setAtPath_leaf (st : Step) (rest : List Step) (snew : String) (v : JValue)
    (hleaf : isLeafB v = true) : setAtPath (st :: rest) snew v = v := by
  cases v with
  | obj fs => simp [isLeafB] at hleaf
  | arr xs => simp [isLeafB] at hleaf
  | str s => cases st <;> cases rest <;> rfl
  | num n => cases st <;> cases rest <;> rfl
  | bool b => cases st <;> cases rest <;> rfl
  | null => cases st <;> cases rest <;> rfl

/-- Overwriting through one path never changes the value found through an
incomparable path. -/
theorem getAtPath_setAtPath_frame : ∀ (p p' : List Step) (snew : String) (v : JValue),
    ¬ p' <+: p → ¬ p <+: p' →
    getAtPath p (setAtPath p' snew v) = getAtPath p v := by
  intro p
  induction p with
  | nil =>
    intro p' snew v h1 h2
    exact absurd List.nil_prefix h2
  | cons s ps ih =>
    intro p' snew v h1 h2
    cases p' with
    | nil => exact absurd List.nil_prefix h1
    | cons s' ps' =>
      by_cases hss : s' = s
      · subst hss
        have hps1 : ¬ ps' <+: ps := fun hc => h1 (List.cons_prefix_cons.mpr ⟨rfl, hc⟩)
        have hps2 : ¬ ps <+: ps' := fun hc => h2 (List.cons_prefix_cons.mpr ⟨rfl, hc⟩)
        cases ps' with
        | nil => exact absurd List.nil_prefix hps1
        | cons r rest =>
          cases v with
          | obj fs =>
            cases s' with
            | key k =>
              show getAtPath (Step.key k :: ps)
                (match lookupJ fs k with
                 | some u => JValue.obj (setKey fs k (setAtPath (r :: rest) snew u))
                 | none => JValue.obj fs) = _
              cases hlk : lookupJ fs k with
              | some u =>
                show (match lookupJ (setKey fs k (setAtPath (r :: rest) snew u)) k with
                  | some w => getAtPath ps w
                  | none => none) = _
                rw [lookupJ_setKey_found fs k _ u hlk]
                show getAtPath ps (setAtPath (r :: rest) snew u) = _
                rw [ih (r :: rest) snew u hps1 hps2]
                show _ = (match lookupJ fs k with
                  | some w => getAtPath ps w
                  | none => none)
                rw [hlk]
              | none => rfl
            | idx i =>
              rw [setAtPath_idx_obj]
          | arr xs =>
            cases s' with
            | key k =>
              rw [setAtPath_key_arr]
            | idx i =>
              show getAtPath (Step.idx i :: ps)
                (match xs.get? i with
                 | some u => JValue.arr (xs.set i (setAtPath (r :: rest) snew u))
                 | none => JValue.arr xs) = _
              cases hlk : xs.get? i with
              | some u =>
                have hlt : i < xs.length := List.get?_eq_some.mp hlk |>.choose
                show (match (xs.set i (setAtPath (r :: rest) snew u)).get? i with
                  | some w => getAtPath ps w
                  | none => none) = _
                rw [List.get?_set_eq_of_lt _ hlt]
                show getAtPath ps (setAtPath (r :: rest) snew u) = _
                rw [ih (r :: rest) snew u hps1 hps2]
                show _ = (match xs.get? i with
                  | some w => getAtPath ps w
                  | none => none)
                rw [hlk]
              | none => rfl
          | str s0 => rw [setAtPath_leaf _ _ _ _ (by rfl)]
          | num n => rw [setAtPath_leaf _ _ _ _ (by rfl)]
          | bool b => rw [setAtPath_leaf _ _ _ _ (by rfl)]
          | null => rw [setAtPath_leaf _ _ _ _ (by rfl)]
      · cases v with
        | obj fs =>
          cases hs' : s' with
          | idx i' =>
            rw [setAtPath_idx_obj]
          | key k' =>
            cases s with
            | idx i =>
              have hres : ∃ gs, setAtPath (Step.key k' :: ps') snew (.obj fs) = .obj gs := by
                cases ps' with
                | nil => exact ⟨setKey fs k' (.str snew), rfl⟩
                | cons r rest =>
                  show ∃ gs, (match lookupJ fs k' with
                    | some u => JValue.obj (setKey fs k' (setAtPath (r :: rest) snew u))
                    | none => JValue.obj fs) = JValue.obj gs
                  cases hlk : lookupJ fs k' with
                  | some u => exact ⟨_, rfl⟩
                  | none => exact ⟨fs, rfl⟩
              obtain ⟨gs, hgs⟩ := hres
              rw [hgs]
              rfl
            | key k =>
              have hkk : k' ≠ k := by
                intro hc
                rw [hs'] at hss
                exact hss (by rw [hc])
              have hlk_pres : lookupJ (match setAtPath (Step.key k' :: ps') snew (.obj fs) with
                  | JValue.obj gs => gs
                  | _ => fs) k = lookupJ fs k := by
                cases ps' with
                | nil =>
                  show lookupJ (setKey fs k' (.str snew)) k = lookupJ fs k
                  exact lookupJ_setKey_ne fs k' k (.str snew) hkk
                | cons r rest =>
                  show lookupJ (match (match lookupJ fs k' with
                    | some u => JValue.obj (setKey fs k' (setAtPath (r :: rest) snew u))
                    | none => JValue.obj fs) with
                    | JValue.obj gs => gs
                    | _ => fs) k = lookupJ fs k
                  cases hlk : lookupJ fs k' with
                  | some u =>
                    show lookupJ (setKey fs k' (setAtPath (r :: rest) snew u)) k = lookupJ fs k
                    exact lookupJ_setKey_ne fs k' k _ hkk
                  | none => rfl
              have hobj : ∃ gs, setAtPath (Step.key k' :: ps') snew (.obj fs) = .obj gs ∧
                  lookupJ gs k = lookupJ fs k := by
                cases ps' with
                | nil =>
                  exact ⟨setKey fs k' (.str snew), rfl, lookupJ_setKey_ne fs k' k _ hkk⟩
                | cons r rest =>
                  show ∃ gs, (match lookupJ fs k' with
                    | some u => JValue.obj (setKey fs k' (setAtPath (r :: rest) snew u))
                    | none => JValue.obj fs) = JValue.obj gs ∧ lookupJ gs k = lookupJ fs k
                  cases hlk : lookupJ fs k' with
                  | some u =>
                    exact ⟨_, rfl, lookupJ_setKey_ne fs k' k _ hkk⟩
                  | none => exact ⟨fs, rfl, rfl⟩
              obtain ⟨gs, hgs, hlkg⟩ := hobj
              rw [hgs]
              show (match lookupJ gs k with
                | some w => getAtPath ps w
                | none => none) = (match lookupJ fs k with
                | some w => getAtPath ps w
                | none => none)
              rw [hlkg]
        | arr xs =>
          cases hs' : s' with
          | key k' =>
            rw [setAtPath_key_arr]
          | idx i' =>
            cases s with
            | key k =>
              have hres : ∃ ys, setAtPath (Step.idx i' :: ps') snew (.arr xs) = .arr ys := by
                cases ps' with
                | nil => exact ⟨xs.set i' (.str snew), rfl⟩
                | cons r rest =>
                  show ∃ ys, (match xs.get? i' with
                    | some u => JValue.arr (xs.set i' (setAtPath (r :: rest) snew u))
                    | none => JValue.arr xs) = JValue.arr ys
                  cases hlk : xs.get? i' with
                  | some u => exact ⟨_, rfl⟩
                  | none => exact ⟨xs, rfl⟩
              obtain ⟨ys, hys⟩ := hres
              rw [hys]
              rfl
            | idx i =>
              have hii : i' ≠ i := by
                intro hc
                rw [hs'] at hss
                exact hss (by rw [hc])
              have hobj : ∃ ys, setAtPath (Step.idx i' :: ps') snew (.arr xs) = .arr ys ∧
                  ys.get? i = xs.get? i := by
                cases ps' with
                | nil =>
                  exact ⟨xs.set i' (.str snew), rfl, List.get?_set_ne _ _ hii⟩
                | cons r rest =>
                  show ∃ ys, (match xs.get? i' with
                    | some u => JValue.arr (xs.set i' (setAtPath (r :: rest) snew u))
                    | none => JValue.arr xs) = JValue.arr ys ∧ ys.get? i = xs.get? i
                  cases hlk : xs.get? i' with
                  | some u =>
                    exact ⟨_, rfl, List.get?_set_ne _ _ hii⟩
                  | none => exact ⟨xs, rfl, rfl⟩
              obtain ⟨ys, hys, hget⟩ := hobj
              rw [hys]
              show (match ys.get? i with
                | some w => getAtPath ps w
                | none => none) = (match xs.get? i with
                | some w => getAtPath ps w
                | none => none)
              rw [hget]
        | str s0 => rw [setAtPath_leaf _ _ _ _ (by rfl)]
        | num n => rw [setAtPath_leaf _ _ _ _ (by rfl)]
        | bool b => rw [setAtPath_leaf _ _ _ _ (by rfl)]
        | null => rw [setAtPath_leaf _ _ _ _ (by rfl)]

/-- After a completed apply loop, paths incomparable with every recorded
location read unchanged. -/
theorem applyLoop_frame (p : List Step) : ∀ (found : List Found) (d : Int) (root out : JValue),
    (∀ f ∈ found, ¬ f.path <+: p ∧ ¬ p <+: f.path) →
    applyLoop d root found = .ok out →
    getAtPath p out = getAtPath p root := by
  intro found
  induction found with
  | nil =>
    intro d root out _ h
    injection h with h'
    rw [h']
  | cons f rest ih =>
    intro d root out hinc h
    unfold applyLoop at h
    split at h
    · cases h
    · rename_i shifted hsh
      have htail : ∀ g ∈ rest, ¬ g.path <+: p ∧ ¬ p <+: g.path := by
        intro g hg
        exact hinc g (List.mem_cons.mpr (Or.inr hg))
      have h1 := ih d _ out htail h
      rw [h1]
      have hh := hinc f (List.mem_cons_self f rest)
      exact getAtPath_setAtPath_frame p f.path _ root hh.1 hh.2

theorem contains_false_not_mem (l : List String) (x : String)
    (h : l.contains x = false) : x ∉ l := by
  induction l with
  | nil => simp
  | cons y rest ih =>
    simp only [List.contains_cons, Bool.or_eq_false_iff] at h
    intro hm
    rcases List.mem_cons.mp hm with h1 | h1
    · rw [h1] at h
      simp at h
    · exact ih h.2 h1

theorem allDistinct_head (x : String) (rest : List String)
    (h : allDistinct (x :: rest) = true) :
    x ∉ rest ∧ allDistinct rest = true := by
  unfold allDistinct at h
  simp only [Bool.and_eq_true, Bool.not_eq_true'] at h
  exact ⟨contains_false_not_mem rest x h.1, h.2⟩

theorem lookupJ_some_mem : ∀ (fs : List (String × JValue)) (k : String) (v : JValue),
    lookupJ fs k = some v → k ∈ fs.map Prod.fst := by
  intro fs
  induction fs with
  | nil => intro k v h; cases h
  | cons kv rest ih =>
    intro k v h
    obtain ⟨k0, v0⟩ := kv
    unfold lookupJ at h
    by_cases hk : k0 = k
    · rw [hk]
      exact List.mem_cons.mpr (Or.inl rfl)
    · rw [if_neg hk] at h
      exact List.mem_cons.mpr (Or.inr (ih k v h))

theorem uniqObjB_lookup : ∀ (fs : List (String × JValue)) (k : String) (v : JValue),
    uniqObjB fs = true → lookupJ fs k = some v → uniqKeysB v = true := by
  intro fs
  induction fs with
  | nil => intro k v _ h; cases h
  | cons kv rest ih =>
    intro k v hu h
    obtain ⟨k0, v0⟩ := kv
    have hu' : uniqKeysB v0 = true ∧ uniqObjB rest = true := by
      unfold uniqObjB at hu
      simpa [Bool.and_eq_true] using hu
    unfold lookupJ at h
    by_cases hk : k0 = k
    · rw [if_pos hk] at h
      injection h with h'
      rw [← h']
      exact hu'.1
    · rw [if_neg hk] at h
      exact ih k v hu'.2 h

theorem uniqArrB_get : ∀ (xs : List JValue) (j : Nat) (v : JValue),
    uniqArrB xs = true → xs.get? j = some v → uniqKeysB v = true := by
  intro xs
  induction xs with
  | nil => intro j v _ h; cases h
  | cons x rest ih =>
    intro j v hu h
    have hu' : uniqKeysB x = true ∧ uniqArrB rest = true := by
      unfold uniqArrB at hu
      simpa [Bool.and_eq_true] using hu
    cases j with
    | zero =>
      injection h with h'
      rw [← h']
      exact hu'.1
    | succ m => exact ih m v hu'.2 h

theorem iterObj_cons (k0 : String) (v0 : JValue) (rest : List (String × JValue)) :
    iterObj ((k0, v0) :: rest) =
      (match v0 with
       | .str s0 => [([Step.key k0], s0)]
       | _ => (iterStringNodes v0).map (fun ps => (Step.key k0 :: ps.1, ps.2))) ++
        iterObj rest := by
  cases v0 <;> rfl

theorem iterArr_cons (i : Nat) (v0 : JValue) (rest : List JValue) :
    iterArr i (v0 :: rest) =
      (match v0 with
       | .str s0 => [([Step.idx i], s0)]
       | _ => (iterStringNodes v0).map (fun ps => (Step.idx i :: ps.1, ps.2))) ++
        iterArr (i + 1) rest := by
  cases v0 <;> rfl

/-- Decomposition of a membership in the object scan. -/
theorem iterObj_mem : ∀ (fs : List (String × JValue)) (p : List Step) (s : String),
    allDistinct (fs.map Prod.fst) = true →
    (p, s) ∈ iterObj fs →
    ∃ k v' p0, p = Step.key k :: p0 ∧ lookupJ fs k = some v' ∧
      ((v' = JValue.str s ∧ p0 = []) ∨ (p0, s) ∈ iterStringNodes v') := by
  intro fs
  induction fs with
  | nil =>
    intro p s _ h
    simp [iterObj] at h
  | cons kv rest ih =>
    obtain ⟨k0, v0⟩ := kv
    intro p s hdist hmem
    have hd := allDistinct_head k0 (rest.map Prod.fst) (by simpa using hdist)
    rw [iterObj_cons] at hmem
    rcases List.mem_append.mp hmem with hl | hr
    · cases v0 with
      | str s0 =>
        simp only [List.mem_singleton, Prod.mk.injEq] at hl
        refine ⟨k0, .str s0, [], by rw [hl.1], ?_, Or.inl ⟨by rw [hl.2], rfl⟩⟩
        unfold lookupJ
        rw [if_pos rfl]
      | num n => simp [iterStringNodes] at hl
      | bool b => simp [iterStringNodes] at hl
      | null => simp [iterStringNodes] at hl
      | obj gs =>
        obtain ⟨⟨p0, s1⟩, hm0, heq⟩ := List.mem_map.mp hl
        simp only [Prod.mk.injEq] at heq
        refine ⟨k0, .obj gs, p0, by rw [← heq.1], ?_, Or.inr (by rw [heq.2] at hm0; exact hm0)⟩
        unfold lookupJ
        rw [if_pos rfl]
      | arr xs =>
        obtain ⟨⟨p0, s1⟩, hm0, heq⟩ := List.mem_map.mp hl
        simp only [Prod.mk.injEq] at heq
        refine ⟨k0, .arr xs, p0, by rw [← heq.1], ?_, Or.inr (by rw [heq.2] at hm0; exact hm0)⟩
        unfold lookupJ
        rw [if_pos rfl]
    · obtain ⟨k, v', p0, hp, hlk, hcase⟩ := ih p s hd.2 hr
      have hkne : k0 ≠ k := by
        intro hc
        exact hd.1 (by rw [hc]; exact lookupJ_some_mem rest k v' hlk)
      refine ⟨k, v', p0, hp, ?_, hcase⟩
      unfold lookupJ
      rw [if_neg hkne]
      exact hlk

/-- Decomposition of a membership in the sequence scan. -/
theorem iterArr_mem : ∀ (xs : List JValue) (i : Nat) (p : List Step) (s : String),
    (p, s) ∈ iterArr i xs →
    ∃ j v' p0, p = Step.idx (i + j) :: p0 ∧ xs.get? j = some v' ∧
      ((v' = JValue.str s ∧ p0 = []) ∨ (p0, s) ∈ iterStringNodes v') := by
  intro xs
  induction xs with
  | nil =>
    intro i p s h
    simp [iterArr] at h
  | cons v0 rest ih =>
    intro i p s hmem
    rw [iterArr_cons] at hmem
    rcases List.mem_append.mp hmem with hl | hr
    · cases v0 with
      | str s0 =>
        simp only [List.mem_singleton, Prod.mk.injEq] at hl
        exact ⟨0, .str s0, [], by rw [hl.1, Nat.add_zero], rfl, Or.inl ⟨by rw [hl.2], rfl⟩⟩
      | num n => simp [iterStringNodes] at hl
      | bool b => simp [iterStringNodes] at hl
      | null => simp [iterStringNodes] at hl
      | obj gs =>
        obtain ⟨⟨p0, s1⟩, hm0, heq⟩ := List.mem_map.mp hl
        simp only [Prod.mk.injEq] at heq
        exact ⟨0, .obj gs, p0, by rw [← heq.1, Nat.add_zero], rfl,
          Or.inr (by rw [heq.2] at hm0; exact hm0)⟩
      | arr ys =>
        obtain ⟨⟨p0, s1⟩, hm0, heq⟩ := List.mem_map.mp hl
        simp only [Prod.mk.injEq] at heq
        exact ⟨0, .arr ys, p0, by rw [← heq.1, Nat.add_zero], rfl,
          Or.inr (by rw [heq.2] at hm0; exact hm0)⟩
    · obtain ⟨j, v', p0, hp, hg, hcase⟩ := ih (i + 1) p s hr
      refine ⟨j + 1, v', p0, ?_, hg, hcase⟩
      rw [hp]
      congr 2
      omega

/-- Soundness of the string-node scan: under unique keys, every yielded
path reads back the yielded string. Fuel variant on the path length. -/
theorem iter_sound : ∀ (n : Nat) (p : List Step) (v : JValue) (s : String),
    p.length ≤ n → uniqKeysB v = true → (p, s) ∈ iterStringNodes v →
    getAtPath p v = some (.str s) := by
  intro n
  induction n with
  | zero =>
    intro p v s hlen huniq hmem
    have hp0 : p = [] := List.eq_nil_of_length_eq_zero (Nat.le_zero.mp hlen)
    exfalso
    cases v with
    | obj fs =>
      have hdist : allDistinct (fs.map Prod.fst) = true := by
        unfold uniqKeysB at huniq
        have hboth : allDistinct (fs.map Prod.fst) = true ∧ uniqObjB fs = true := by
          simpa [Bool.and_eq_true] using huniq
        exact hboth.1
      obtain ⟨k, v', p0, hp, _, _⟩ := iterObj_mem fs p s hdist hmem
      rw [hp0] at hp
      cases hp
    | arr xs =>
      obtain ⟨j, v', p0, hp, _, _⟩ := iterArr_mem xs 0 p s hmem
      rw [hp0] at hp
      cases hp
    | str s0 => simp [iterStringNodes] at hmem
    | num q => simp [iterStringNodes] at hmem
    | bool b => simp [iterStringNodes] at hmem
    | null => simp [iterStringNodes] at hmem
  | succ m ih =>
    intro p v s hlen huniq hmem
    cases v with
    | obj fs =>
      have huniq' : allDistinct (fs.map Prod.fst) = true ∧ uniqObjB fs = true := by
        unfold uniqKeysB at huniq
        simpa [Bool.and_eq_true] using huniq
      obtain ⟨k, v', p0, hp, hlk, hcase⟩ := iterObj_mem fs p s huniq'.1 hmem
      rw [hp]
      show (match lookupJ fs k with
            | some u => getAtPath p0 u
            | none => none) = some (.str s)
      rw [hlk]
      rcases hcase with ⟨hv, hp0⟩ | hmem0
      · rw [hv, hp0]
        rfl
      · refine ih p0 v' s ?_ (uniqObjB_lookup fs k v' huniq'.2 hlk) hmem0
        rw [hp] at hlen
        simpa using Nat.le_of_succ_le_succ hlen
    | arr xs =>
      have huniq' : uniqArrB xs = true := by
        unfold uniqKeysB at huniq
        exact huniq
      obtain ⟨j, v', p0, hp, hg, hcase⟩ := iterArr_mem xs 0 p s hmem
      rw [hp]
      show (match xs.get? (0 + j) with
            | some u => getAtPath p0 u
            | none => none) = some (.str s)
      rw [Nat.zero_add, hg]
      rcases hcase with ⟨hv, hp0⟩ | hmem0
      · rw [hv, hp0]
        rfl
      · refine ih p0 v' s ?_ (uniqArrB_get xs j v' huniq' hg) hmem0
        rw [hp] at hlen
        simpa using Nat.le_of_succ_le_succ hlen
    | str s0 => simp [iterStringNodes] at hmem
    | num q => simp [iterStringNodes] at hmem
    | bool b => simp [iterStringNodes] at hmem
    | null => simp [iterStringNodes] at hmem

theorem checkItems_ok_each : ∀ (items : List JValue) (i : Nat),
    checkItems i items = .ok () → ∀ item ∈ items, itemOk item = true := by
  intro items
  induction items with
  | nil => intro i _ item hm; cases hm
  | cons x rest ih =>
    intro i h item hm
    rw [checkItems_cons] at h
    split at h
    · rename_i hok
      rcases List.mem_cons.mp hm with h1 | h1
      · rw [h1]; exact hok
      · exact ih (i + 1) h item h1
    · cases h

/-- Inversion of a successful load: the input is the returned array and
every item passed the structural check. -/
theorem load_ok_inv (input : JValue) (data : List JValue)
    (h : load_fixture input = .ok data) :
    input = .arr data ∧ ∀ item ∈ data, itemOk item = true := by
  cases input with
  | arr items =>
    have h2 : (match checkItems 0 items with
        | Except.ok _ => Except.ok items
        | Except.error e => Except.error e) = Except.ok data := h
    cases hchk : checkItems 0 items with
    | ok u =>
      rw [hchk] at h2
      injection h2 with h'
      rw [← h']
      exact ⟨rfl, checkItems_ok_each items 0 hchk⟩
    | error e =>
      rw [hchk] at h2
      cases h2
  | obj fs => cases h
  | str s => cases h
  | num q => cases h
  | bool b => cases h
  | null => cases h

theorem itemOk_inv (item : JValue) (h : itemOk item = true) :
    ∃ fs0 gs, item = .obj fs0 ∧ lookupJ fs0 "fields" = some (.obj gs) := by
  cases item with
  | obj fs0 =>
    have h2 : (match lookupJ fs0 "fields" with
        | some (JValue.obj _) => true
        | _ => false) = true := h
    cases hlk : lookupJ fs0 "fields" with
    | none =>
      rw [hlk] at h2
      cases h2
    | some v =>
      cases v with
      | obj gs => exact ⟨fs0, gs, rfl, hlk⟩
      | arr xs => rw [hlk] at h2; cases h2
      | str s => rw [hlk] at h2; cases h2
      | num q => rw [hlk] at h2; cases h2
      | bool b => rw [hlk] at h2; cases h2
      | null => rw [hlk] at h2; cases h2
  | arr xs => cases h
  | str s => cases h
  | num q => cases h
  | bool b => cases h
  | null => cases h

/-- Every record produced by one item scan comes from a yielded node whose
string parses to a recognised timestamp. -/
theorem collectFrom_mem : ∀ (nodes : List (List Step × String)) (i : Nat) (fs : List Found),
    collectFrom i nodes = .ok fs → ∀ f ∈ fs, ∃ p s tv, (p, s) ∈ nodes ∧
      parse_utc_timestamp s = .ok (some tv) ∧
      f = ⟨Step.idx i :: Step.key "fields" :: p, tv.dt, tv.shape, tv.fracLen⟩ := by
  intro nodes
  induction nodes with
  | nil =>
    intro i fs h f hm
    injection h with h'
    rw [← h'] at hm
    cases hm
  | cons node rest ih =>
    obtain ⟨p0, s0⟩ := node
    intro i fs h f hm
    have h2 : (match parse_utc_timestamp s0 with
        | .error e => .error e
        | .ok none => collectFrom i rest
        | .ok (some tv) =>
          match collectFrom i rest with
          | .error e => .error e
          | .ok gs =>
            .ok (⟨Step.idx i :: Step.key "fields" :: p0, tv.dt, tv.shape, tv.fracLen⟩ :: gs))
        = Except.ok fs := h
    cases hp : parse_utc_timestamp s0 with
    | error e =>
      rw [hp] at h2
      cases h2
    | ok o =>
      cases o with
      | none =>
        rw [hp] at h2
        obtain ⟨p, s, tv, hmem, hps, hf⟩ := ih i fs h2 f hm
        exact ⟨p, s, tv, List.mem_cons.mpr (Or.inr hmem), hps, hf⟩
      | some tv =>
        rw [hp] at h2
        cases hr : collectFrom i rest with
        | error e =>
          rw [hr] at h2
          cases h2
        | ok gs =>
          rw [hr] at h2
          injection h2 with h'
          rw [← h'] at hm
          rcases List.mem_cons.mp hm with h1 | h1
          · exact ⟨p0, s0, tv, List.mem_cons.mpr (Or.inl rfl), hp, h1⟩
          · obtain ⟨p, s, tv2, hmem, hps, hf⟩ := ih i gs hr f h1
            exact ⟨p, s, tv2, List.mem_cons.mpr (Or.inr hmem), hps, hf⟩

/-- Every record produced by collect_dates points into the fields subtree
of some item, at a node whose string parses to a recognised timestamp. -/
theorem collect_dates_mem : ∀ (data : List JValue) (i0 : Nat) (found : List Found),
    collect_dates i0 data = .ok found → ∀ f ∈ found, ∃ j item p s tv,
      data.get? j = some item ∧ (p, s) ∈ iterStringNodes (getFields item) ∧
      parse_utc_timestamp s = .ok (some tv) ∧
      f = ⟨Step.idx (i0 + j) :: Step.key "fields" :: p, tv.dt, tv.shape, tv.fracLen⟩ := by
  intro data
  induction data with
  | nil =>
    intro i0 found h f hm
    injection h with h'
    rw [← h'] at hm
    cases hm
  | cons item rest ih =>
    intro i0 found h f hm
    have h2 : (match collectFrom i0 (iterStringNodes (getFields item)) with
        | .error e => .error e
        | .ok fs1 =>
          match collect_dates (i0 + 1) rest with
          | .error e => .error e
          | .ok fs2 => .ok (fs1 ++ fs2)) = Except.ok found := h
    cases hc : collectFrom i0 (iterStringNodes (getFields item)) with
    | error e =>
      rw [hc] at h2
      cases h2
    | ok fs1 =>
      rw [hc] at h2
      cases hr : collect_dates (i0 + 1) rest with
      | error e =>
        rw [hr] at h2
        cases h2
      | ok fs2 =>
        rw [hr] at h2
        injection h2 with h'
        rw [← h'] at hm
        rcases List.mem_append.mp hm with h1 | h1
        · obtain ⟨p, s, tv, hmem, hps, hf⟩ := collectFrom_mem _ i0 fs1 hc f h1
          exact ⟨0, item, p, s, tv, rfl, hmem, hps, by rw [hf, Nat.add_zero]⟩
        · obtain ⟨j, item2, p, s, tv, hjget, hmem, hps, hf⟩ := ih (i0 + 1) fs2 hr f h1
          exact ⟨j + 1, item2, p, s, tv, hjget, hmem, hps, by rw [hf]; congr 3; omega⟩

/-- C9: the apply phase overwrites only the locations recorded as parsed
timestamps; every string leaf matching neither pattern and every null,
number or boolean leaf reads back unchanged from the written output. -/
theorem c9_non_timestamp_preserved (input : JValue) (targetOpt : Option DateTime)
    (now : DateTime) (out : JValue) (found : List Found) (latest : Found)
    (delta : Int) (count : Nat) (p : List Step) (u : JValue)
    (huniq : uniqKeysB input = true)
    (hrun : run input targetOpt now = .written out found latest delta count)
    (hget : getAtPath p input = some u)
    (hu : nonTimestampLeaf u) :
    getAtPath p out = some u := by
  obtain ⟨data, f, fs, hload, hcol, hfound, _hlatest, _hdelta, happ, _hcount⟩ :=
    run_written_inv input targetOpt now out found latest delta count hrun
  obtain ⟨hin, hitems⟩ := load_ok_inv input data hload
  subst hin
  have hleafu : isLeafB u = true := by
    rcases hu with ⟨s, hs, _⟩ | hs | ⟨n, hs⟩ | ⟨b, hs⟩ <;> rw [hs] <;> rfl
  have hinc : ∀ g ∈ (f :: fs), ¬ g.path <+: p ∧ ¬ p <+: g.path := by
    intro g hg
    obtain ⟨j, item, p1, s1, tv, hjget, hiter, hps, hgeq⟩ :=
      collect_dates_mem data 0 (f :: fs) hcol g hg
    have hitem : itemOk item = true := hitems item (List.get?_mem hjget)
    obtain ⟨fs0, gs, hi, hlkf⟩ := itemOk_inv item hitem
    have hfg : getFields item = .obj gs := by
      rw [hi]
      show (match lookupJ fs0 "fields" with
            | some v => v
            | none => JValue.null) = JValue.obj gs
      rw [hlkf]
    have huf : uniqKeysB (JValue.obj gs) = true := by
      have hua : uniqArrB data = true := by
        unfold uniqKeysB at huniq
        exact huniq
      have hui : uniqKeysB item = true := uniqArrB_get data j item hua hjget
      rw [hi] at hui
      have hsplit : allDistinct (fs0.map Prod.fst) = true ∧ uniqObjB fs0 = true := by
        unfold uniqKeysB at hui
        simpa [Bool.and_eq_true] using hui
      exact uniqObjB_lookup fs0 "fields" (.obj gs) hsplit.2 hlkf
    have hgg : getAtPath g.path (.arr data) = some (.str s1) := by
      rw [hgeq]
      show (match data.get? (0 + j) with
            | some w => getAtPath (Step.key "fields" :: p1) w
            | none => none) = some (.str s1)
      rw [Nat.zero_add, hjget, hi]
      show (match lookupJ fs0 "fields" with
            | some w => getAtPath p1 w
            | none => none) = some (.str s1)
      rw [hlkf]
      have hiter2 : (p1, s1) ∈ iterStringNodes (JValue.obj gs) := by
        rw [hfg] at hiter
        exact hiter
      exact iter_sound p1.length p1 (.obj gs) s1 le_rfl huf hiter2
    have hne : p ≠ g.path := by
      intro he
      rw [he] at hget
      rw [hgg] at hget
      injection hget with h'
      rcases hu with ⟨s, hs, hpn⟩ | hs | ⟨n, hs⟩ | ⟨b, hs⟩
      · rw [hs] at h'
        injection h' with h''
        rw [h''] at hps
        rw [hpn] at hps
        cases hps
      · rw [hs] at h'
        cases h'
      · rw [hs] at h'
        cases h'
      · rw [hs] at h'
        cases h'
    have hpair := leaf_paths_incomparable (.arr data) p g.path u (.str s1) hget hleafu hgg rfl hne
    exact ⟨hpair.2, hpair.1⟩
  have hframe := applyLoop_frame p (f :: fs) delta (.arr data) out hinc happ
  rw [hframe]
  exact hget

set_option maxRecDepth 100000 in
/-- Witness for C9 on a concrete fixture: the non-timestamp string leaf
"hello" reads back unchanged from the written output. -/
theorem c9_witness :
    getAtPath [Step.idx 0, Step.key "fields", Step.key "n"]
      (JValue.arr [JValue.obj [("model", JValue.str "app.note"),
        ("fields", JValue.obj [("a", JValue.str "9998-06-01T00:00:00.000Z"),
                               ("n", JValue.str "hello")])]]) =
      some (JValue.str "hello") :=
  c9_non_timestamp_preserved
    (JValue.arr [JValue.obj [("model", JValue.str "app.note"),
      ("fields", JValue.obj [("a", JValue.str "9998-01-03T12:00:00.500Z"),
                             ("n", JValue.str "hello")])]])
    (some (DateTime.mk 9998 6 1 0 0 0 0)) (DateTime.mk 9998 1 1 0 0 0 0)
    (JValue.arr [JValue.obj [("model", JValue.str "app.note"),
      ("fields", JValue.obj [("a", JValue.str "9998-06-01T00:00:00.000Z"),
                             ("n", JValue.str "hello")])]])
    [Found.mk [Step.idx 0, Step.key "fields", Step.key "a"]
      (DateTime.mk 9998 1 3 12 0 0 500000) Shape.dateTime 3]
    (Found.mk [Step.idx 0, Step.key "fields", Step.key "a"]
      (DateTime.mk 9998 1 3 12 0 0 500000) Shape.dateTime 3)
    12830399500000 1
    [Step.idx 0, Step.key "fields", Step.key "n"] (JValue.str "hello")
    (by rfl) (by rfl) (by rfl)
    (Or.inl ⟨"hello", rfl, rfl⟩)
